import Mathlib

/-!
Verification development for the OS-Simulator engine (`src/src/App.js`).

The JavaScript simulation engine is shallowly embedded below.  JS numbers are
modelled as `Nat` (clock times, bursts, pages, cylinders) or `Int` (Banker's
resource vectors, metric differences that can be negative in JS), and the
aggregate utilization / throughput figures as `Rat`.  JS arrays become `List`s,
the stable `Array.prototype.sort` becomes `List.insertionSort` (which is
stable), `Set` becomes an append-if-absent list, and in-place mutation becomes
explicit state passing.  Loops whose bound is not structural are given an
explicit fuel parameter and return `none` when the fuel runs out; the top-level
entry points supply a fuel that the termination theorems below prove
sufficient, so `none` is only ever returned on inputs where the JS loop itself
would not terminate.
-/

/-- One row of the CPU-scheduling input: `{pid, arrival, burst, priority}`. -/
structure Proc where
  pid : String
  arrival : Nat
  burst : Nat
  priority : Int
deriving Repr, DecidableEq, Inhabited

/-- One closed schedule segment `{pid, start, end}` as produced by the
non-preemptive schedulers and Round Robin. -/
structure Seg where
  pid : String
  start : Nat
  «end» : Nat
deriving Repr, DecidableEq, Inhabited

/-- A segment as stored by `srtf` while running: `end` is `null` (here `none`)
while the segment is still open. -/
structure SegO where
  pid : String
  start : Nat
  «end» : Option Nat
deriving Repr, DecidableEq, Inhabited

/-- Total executed time a given pid receives in a schedule: the sum of
`end - start` over the segments carrying that pid.  This is exactly the
`executed` computation inside `computeMetrics`. -/
def sumDur (pid : String) (segs : List Seg) : Nat :=
  ((segs.filter (fun s => s.pid == pid)).map (fun s => s.«end» - s.start)).sum

/-- Executed time per pid for an `srtf`-style schedule; an open segment
(`end = none`) contributes `0`.  The final `srtf` schedule is proved closed. -/
def sumDurO (pid : String) (segs : List SegO) : Nat :=
  ((segs.filter (fun s => s.pid == pid)).map
    (fun s => (s.«end».getD s.start) - s.start)).sum

/-- Per-process metrics row as built by `computeMetrics`.  `start`,
`completion` and `response` are `null` (`none`) until set. -/
structure PMetric where
  pid : String
  arrival : Nat
  burst : Nat
  priority : Int
  start : Option Nat
  completion : Option Nat
  waiting : Int
  turnaround : Int
  response : Option Int
deriving Repr, DecidableEq, Inhabited

/-- Result record of `computeMetrics`. -/
structure MetricsResult where
  metrics : List PMetric
  utilization : Rat
  throughput : Rat
deriving Repr, DecidableEq

/-- Initial metrics row for a process (the object literal in the
`processes.map` of `computeMetrics`). -/
def pmInit (p : Proc) : PMetric :=
  { pid := p.pid, arrival := p.arrival, burst := p.burst, priority := p.priority
    start := none, completion := none, waiting := 0, turnaround := 0, response := none }

/-- Index of the metrics row that `mBy[pid]` denotes.  `Object.fromEntries`
keeps the binding of the LAST entry with a given key, and `mBy` holds object
references, so mutating `mBy[pid]` mutates the last metrics row of that pid. -/
def lastIdxWith (ms : List PMetric) (pid : String) : Option Nat :=
  ((ms.enum.filter (fun im => im.2.pid == pid)).getLast?).map (·.1)

/-- Effect of one schedule segment on the metrics rows: through `mBy[seg.pid]`
the JS loop sets `start` on first sight and `completion` every time. -/
def applySeg (ms : List PMetric) (s : Seg) : List PMetric :=
  match lastIdxWith ms s.pid with
  | none => ms
  | some k =>
    ms.enum.map (fun im =>
      if im.1 = k then
        { im.2 with
          start := match im.2.start with | none => some s.start | some v => some v
          completion := some s.«end» }
      else im.2)

/-- Second pass of `computeMetrics`: the `metrics.forEach` computing
`turnaround`, `waiting` and `response` (with `?? arrival` defaults). -/
def finishMetric (schedule : List Seg) (m : PMetric) : PMetric :=
  let turnaround : Int := ((m.completion.getD m.arrival : Nat) : Int) - (m.arrival : Int)
  let executed : Int := (sumDur m.pid schedule : Int)
  { m with
    turnaround := turnaround
    waiting := turnaround - executed
    response := some (((m.start.getD m.arrival : Nat) : Int) - (m.arrival : Int)) }

/-- Embedding of `computeMetrics(schedule, processes)`. -/
def computeMetrics (schedule : List Seg) (processes : List Proc) : MetricsResult :=
  let firstStart : Nat := match schedule with | [] => 0 | s :: _ => s.start
  let lastEnd : Nat := ((schedule.getLast?).map (·.«end»)).getD 0
  let metrics := (schedule.foldl applySeg (processes.map pmInit)).map (finishMetric schedule)
  let totalBurst := (processes.map (·.burst)).sum
  let utilization : Rat :=
    if lastEnd = 0 then 0 else ((totalBurst : Rat) / ((lastEnd : Rat) - (firstStart : Rat))) * 100
  let throughput : Rat :=
    if lastEnd = 0 then 0 else ((processes.length : Rat) / ((lastEnd : Rat) - (firstStart : Rat)))
  ⟨metrics, utilization, throughput⟩

/-- Embedding of `fcfs`: stable sort by arrival, then one segment per process,
the clock never moving backwards.  (`clone` is identity here: the fold never
mutates its input.) -/
def fcfs (processes : List Proc) : List Seg :=
  let procs := List.insertionSort (fun a b => a.arrival ≤ b.arrival) processes
  (procs.foldl
    (fun (st : Nat × List Seg) p =>
      let t := max st.1 p.arrival
      (t + p.burst, st.2 ++ [⟨p.pid, t, t + p.burst⟩]))
    (0, [])).2

/-- One timeline row of the page-replacement simulators. -/
structure TLStep where
  step : Nat
  page : Nat
  frames : List (Option Nat)
  hit : Bool
deriving Repr, DecidableEq, Inhabited

/-- Result record of `fifoPage` / `lruPage`. -/
structure PageResult where
  timeline : List TLStep
  faults : Nat
deriving Repr, DecidableEq

/-- Loop of `fifoPage` (the `refs.forEach`): `i` is the step index, `ptr` the
circular replacement pointer.  The snapshot is taken after the update. -/
def fifoGo (frames : Nat) : List Nat → Nat → List (Option Nat) → Nat → Nat → List TLStep → PageResult
  | [], _, _, _, faults, tl => ⟨tl, faults⟩
  | p :: rest, i, frameArr, ptr, faults, tl =>
    if frameArr.contains (some p) then
      fifoGo frames rest (i + 1) frameArr ptr faults (tl ++ [⟨i, p, frameArr, true⟩])
    else
      let frameArr' := frameArr.set ptr (some p)
      fifoGo frames rest (i + 1) frameArr' ((ptr + 1) % frames) (faults + 1)
        (tl ++ [⟨i, p, frameArr', false⟩])

/-- Embedding of `fifoPage(refs, frames)`. -/
def fifoPage (refs : List Nat) (frames : Nat) : PageResult :=
  fifoGo frames refs 0 (List.replicate frames none) 0 0 []

/-- The `lastUsed.get(q) ?? -1` read of `lruPage` (`Map` modelled as a
function). -/
def lastUsedI (lastUsed : Nat → Option Nat) (q : Nat) : Int :=
  ((lastUsed q).map (fun n => (n : Int))).getD (-1)

/-- Eviction scan of `lruPage`: start from `frameArr[0]` and keep the first
occupant with the strictly smallest `lastUsed` stamp. -/
def lruEvictPick (frameArr : List Nat) (lastUsed : Nat → Option Nat) : Nat :=
  let l0 := frameArr.headD 0
  (frameArr.foldl
    (fun (best : Nat × Int) q =>
      let t := lastUsedI lastUsed q
      if t < best.2 then (q, t) else best)
    (l0, lastUsedI lastUsed l0)).1

/-- Loop of `lruPage` (the `refs.forEach`).  On a hit the snapshot is padded
inline; fault snapshots are padded by the final normalisation pass. -/
def lruGo (frames : Nat) : List Nat → Nat → List Nat → (Nat → Option Nat) → Nat → List TLStep → List TLStep × Nat
  | [], _, _, _, faults, tl => (tl, faults)
  | p :: rest, i, frameArr, lastUsed, faults, tl =>
    if frameArr.contains p then
      lruGo frames rest (i + 1) frameArr (fun q => if q = p then some i else lastUsed q) faults
        (tl ++ [⟨i, p, frameArr.map some ++ List.replicate (frames - frameArr.length) none, true⟩])
    else
      let frameArr' :=
        if frameArr.length < frames then frameArr ++ [p]
        else
          let ev := lruEvictPick frameArr lastUsed
          frameArr.set (frameArr.indexOf ev) p
      lruGo frames rest (i + 1) frameArr' (fun q => if q = p then some i else lastUsed q) (faults + 1)
        (tl ++ [⟨i, p, frameArr'.map some, false⟩])

/-- Final normalisation pass of `lruPage`: pad every snapshot to the frame
count. -/
def lruNormalize (frames : Nat) (t : TLStep) : TLStep :=
  if t.frames.length < frames then
    { t with frames := t.frames ++ List.replicate (frames - t.frames.length) none }
  else t

/-- Embedding of `lruPage(refs, frames)`. -/
def lruPage (refs : List Nat) (frames : Nat) : PageResult :=
  let (tl, faults) := lruGo frames refs 0 [] (fun _ => none) 0 []
  ⟨tl.map (lruNormalize frames), faults⟩

/-- Absolute cylinder distance (`Math.abs(v - cur)` on naturals). -/
def distN (a b : Nat) : Nat := max a b - min a b

/-- Embedding of `pathFCFS(queue, head)`. -/
def pathFCFS (queue : List Nat) (head : Nat) : List Nat := head :: queue

/-- One `q.forEach` step of `pathSSTF`'s selection: keep the first index whose
distance is strictly below the best so far (`best` starts at `Infinity`,
modelled by `none`). -/
def sstfStepAcc (cur : Nat) (acc : Nat × Option Nat) (iv : Nat × Nat) : Nat × Option Nat :=
  let d := distN iv.2 cur
  match acc.2 with
  | none => (iv.1, some d)
  | some b => if d < b then (iv.1, some d) else acc

/-- Index selection of `pathSSTF` (the `idx` left by the `q.forEach`). -/
def sstfPickIdx (cur : Nat) (q : List Nat) : Nat :=
  (q.enum.foldl (sstfStepAcc cur) (0, none)).1

/-- Loop of `pathSSTF`: repeatedly splice out the picked request.  Exactly
`queue.length` iterations happen, which is the fuel supplied below. -/
def sstfGo : Nat → List Nat → Nat → List Nat
  | 0, _, _ => []
  | fuel + 1, q, cur =>
    if q.isEmpty then []
    else
      let idx := sstfPickIdx cur q
      let c := q.getD idx 0
      c :: sstfGo fuel (q.eraseIdx idx) c

/-- Embedding of `pathSSTF(queue, head)`. -/
def pathSSTF (queue : List Nat) (head : Nat) : List Nat :=
  head :: sstfGo queue.length queue head

/-- Ascending numeric sort (`sort((a,b) => a-b)`). -/
def sortAsc (l : List Nat) : List Nat := List.insertionSort (fun a b => a ≤ b) l

/-- Embedding of `pathSCAN(queue, head, max)`. -/
def pathSCAN (queue : List Nat) (head : Nat) (max : Nat) : List Nat :=
  let below := sortAsc (queue.filter (fun x => x < head))
  let above := sortAsc (queue.filter (fun x => head ≤ x))
  head :: (above ++ max :: below.reverse)

/-- Embedding of `pathCSCAN(queue, head, max)`. -/
def pathCSCAN (queue : List Nat) (head : Nat) (max : Nat) : List Nat :=
  let above := sortAsc (queue.filter (fun x => head ≤ x))
  let below := sortAsc (queue.filter (fun x => x < head))
  head :: (above ++ max :: 0 :: below)

/-- Resource vectors of the Banker's checker (`Int`, since `need` can go
negative when an allocation exceeds the maximum). -/
abbrev VecI := List Int

/-- Resource matrices of the Banker's checker. -/
abbrev MatI := List (List Int)

/-- Vector indexing `v[j]`.  Out-of-range JS indexing would produce `NaN`;
every claim below only exercises in-range reads, where `getD` agrees. -/
def idx1 (v : VecI) (j : Nat) : Int := v.getD j 0

/-- Matrix indexing `m[i][j]` (same in-range caveat as `idx1`). -/
def idx2 (m : MatI) (i j : Nat) : Int := (m.getD i []).getD j 0

/-- Result record of `isSafe`. -/
structure SafeResult where
  safe : Bool
  sequence : List Nat
  need : MatI
deriving Repr, DecidableEq

/-- The `need` computation of `isSafe`: `need[i][j] = max[i][j] - alloc[i][j]`
for `i < n`, `j < m`. -/
def needMatrix (maxM allocM : MatI) (n m : Nat) : MatI :=
  (List.range n).map (fun i => (List.range m).map (fun j => idx2 maxM i j - idx2 allocM i j))

/-- The inner `ok` check of `isSafe`: `need[i][j] ≤ work[j]` for every `j < m`. -/
def canFinish (need : MatI) (work : VecI) (m : Nat) (i : Nat) : Bool :=
  (List.range m).all (fun j => decide (idx2 need i j ≤ idx1 work j))

/-- The `work[j] += alloc[i][j]` update of `isSafe`. -/
def addAlloc (allocM : MatI) (work : VecI) (i : Nat) : VecI :=
  work.mapIdx (fun j w => w + idx2 allocM i j)

/-- Mutable state of the `isSafe` loop. -/
structure BState where
  work : VecI
  finish : List Bool
  seq : List Nat
deriving Repr, DecidableEq

/-- Body of the `for(let i=0;i<n;i++)` pass of `isSafe`: skip finished
processes, finish (and record) a process whose need fits into `work`. -/
def bankersF (need allocM : MatI) (m : Nat) (acc : BState × Bool) (i : Nat) : BState × Bool :=
  if acc.1.finish.getD i false then acc
  else if canFinish need acc.1.work m i then
    (⟨addAlloc allocM acc.1.work i, acc.1.finish.set i true, acc.1.seq ++ [i]⟩, true)
  else acc

/-- One round of the `isSafe` fixed point: the `for(let i=0;i<n;i++)` pass.
The returned flag is `progress`. -/
def bankersRound (need allocM : MatI) (m n : Nat) (st : BState) : BState × Bool :=
  (List.range n).foldl (bankersF need allocM m) (st, false)

/-- The `while(progress)` loop of `isSafe`.  A fuel of `n + 1` is proved
sufficient below (every continuing round finishes at least one process). -/
def bankersLoop (need allocM : MatI) (m n : Nat) : Nat → BState → Option BState
  | 0, _ => none
  | fuel + 1, st =>
    match bankersRound need allocM m n st with
    | (st', true) => bankersLoop need allocM m n fuel st'
    | (st', false) => some st'

/-- Embedding of `isSafe(available, max, alloc)`. -/
def isSafe (available : VecI) (maxM allocM : MatI) : Option SafeResult :=
  let n := maxM.length
  let m := available.length
  let need := needMatrix maxM allocM n m
  (bankersLoop need allocM m n (n + 1) ⟨available, List.replicate n false, []⟩).map
    (fun st =>
      let safe := st.finish.all id
      ⟨safe, if safe then st.seq else [], need⟩)

/-- Modelled from the spec: replay validity of a safe sequence — "every step
satisfies `need[i] ≤ work` at the time it is chosen, where `work` starts equal
to `available` and accumulates the allocation of each finished process". -/
def checkSeq (need allocM : MatI) (work : VecI) : List Nat → Bool
  | [] => true
  | i :: rest => canFinish need work work.length i && checkSeq need allocM (addAlloc allocM work i) rest

/-- Modelled from the spec: one scanning round over the still-unfinished
processes, finishing (and dropping) every process whose need fits into the
accumulating `work`; the flag records whether any process finished. -/
def specRound (need allocM : MatI) (m : Nat) (work : VecI) : List Nat → VecI × List Nat × Bool
  | [] => (work, [], false)
  | i :: rest =>
    if canFinish need work m i then
      let (w', pend', _) := specRound need allocM m (addAlloc allocM work i) rest
      (w', pend', true)
    else
      let (w', pend', prog) := specRound need allocM m work rest
      (w', i :: pend', prog)

/-- Modelled from the spec: "continue scanning rounds as long as at least one
process became finishable in the round; stop when no progress occurs"; safe iff
every process finished.  The fuel-`0` answer is never reached for the supplied
fuel. -/
def specScan (need allocM : MatI) (m : Nat) : Nat → VecI → List Nat → Bool
  | 0, _, pending => pending.isEmpty
  | fuel + 1, work, pending =>
    match specRound need allocM m work pending with
    | (w', pend', true) => specScan need allocM m fuel w' pend'
    | (_, pend', false) => pend'.isEmpty

/-- Modelled from the spec: the fixed-point scan finishes every process. -/
def specScanAll (available : VecI) (maxM allocM : MatI) : Bool :=
  let n := maxM.length
  let m := available.length
  specScan (needMatrix maxM allocM n m) allocM m (n + 1) available (List.range n)

/-- Largest arrival time (used for fuel bounds; `0` on the empty list). -/
def maxArrival (ps : List Proc) : Nat := (ps.map (·.arrival)).foldl max 0

/-- The `Math.min(...arrivals)` starting clock.  JS yields `Infinity` on an
empty list, but then every loop below exits immediately, so the value is never
read; `0` is used in that vacuous case. -/
def minArrival (ps : List Proc) : Nat :=
  match ps.map (·.arrival) with
  | [] => 0
  | a :: rest => rest.foldl min a

/-- The `Set.add` of the JS `seen` / `done` sets: append if absent, so the
list length models `Set.size`. -/
def setAdd (l : List String) (x : String) : List String :=
  if l.contains x then l else l ++ [x]

/-- Pid of the process at index `k` (indices into the cloned `procs` array). -/
def pidAt (procs : List Proc) (k : Nat) : String := (procs.getD k default).pid

/-- Arrival of the process at index `k`. -/
def arrAt (procs : List Proc) (k : Nat) : Nat := (procs.getD k default).arrival

/-- Burst of the process at index `k`. -/
def burAt (procs : List Proc) (k : Nat) : Nat := (procs.getD k default).burst

/-- Priority of the process at index `k`. -/
def priAt (procs : List Proc) (k : Nat) : Int := (procs.getD k default).priority

/-- One push check of the `for(const p of procs)` enqueue pass of `sjf`: push
index `k` when it is unseen, has arrived, and its pid is not already in the
(growing) ready list. -/
def sjfPush (procs : List Proc) (t : Nat) (seen : List String) (rdy : List Nat) (k : Nat) : List Nat :=
  if !(seen.contains (pidAt procs k)) && decide (arrAt procs k ≤ t)
      && rdy.all (fun r => pidAt procs r != pidAt procs k) then
    rdy ++ [k]
  else rdy

/-- The enqueue pass of `sjf`, in original `procs` order. -/
def sjfEnqueue (procs : List Proc) (t : Nat) (seen : List String) (ready : List Nat) : List Nat :=
  (List.range procs.length).foldl (sjfPush procs t seen) ready

/-- Loop of `sjf` (`while(seen.size < procs.length)`), on indices into
`procs`.  The ready queue is sorted stably by burst and its head dispatched;
an empty ready queue advances the clock by one. -/
def sjfGo (procs : List Proc) : Nat → Nat → List Nat → List String → List Seg → Option (List Seg)
  | 0, _, _, _, _ => none
  | fuel + 1, t, ready, seen, sched =>
    if seen.length < procs.length then
      let ready' := sjfEnqueue procs t seen ready
      match List.insertionSort (fun a b => burAt procs a ≤ burAt procs b) ready' with
      | [] => sjfGo procs fuel (t + 1) ready' seen sched
      | k :: rest =>
        sjfGo procs fuel (t + burAt procs k) rest (setAdd seen (pidAt procs k))
          (sched ++ [⟨pidAt procs k, t, t + burAt procs k⟩])
    else some sched

/-- Embedding of `sjf(processes)`; the fuel is proved sufficient for inputs
with pairwise distinct pids. -/
def sjf (processes : List Proc) : Option (List Seg) :=
  sjfGo processes (processes.length * (maxArrival processes + 1) + maxArrival processes + 1)
    (minArrival processes) [] [] []

/-- Loop of `priorityNonPreemptive`: among arrived undone processes pick the
head of the stable sort by priority (lower value first). -/
def prioGo (procs : List Proc) : Nat → Nat → List String → List Seg → Option (List Seg)
  | 0, _, _, _ => none
  | fuel + 1, t, done, sched =>
    if done.length < procs.length then
      let ready := (List.range procs.length).filter
        (fun k => decide (arrAt procs k ≤ t) && !(done.contains (pidAt procs k)))
      match List.insertionSort (fun a b => priAt procs a ≤ priAt procs b) ready with
      | [] => prioGo procs fuel (t + 1) done sched
      | k :: _ =>
        prioGo procs fuel (t + burAt procs k) (setAdd done (pidAt procs k))
          (sched ++ [⟨pidAt procs k, t, t + burAt procs k⟩])
    else some sched

/-- Embedding of `priorityNonPreemptive(processes)`. -/
def priorityNonPreemptive (processes : List Proc) : Option (List Seg) :=
  prioGo processes (processes.length * (maxArrival processes + 1) + maxArrival processes + 1)
    (minArrival processes) [] []

/-- Mutable state of the `srtf` loop: per-index remaining times, the clock,
the index of the running process (`current`), and the schedule whose last
segment may still be open. -/
structure SrtfState where
  rem : List Nat
  t : Nat
  cur : Option Nat
  sched : List SegO
deriving Repr, DecidableEq

/-- Remaining time of the process at index `k`. -/
def remAt (rem : List Nat) (k : Nat) : Nat := rem.getD k 0

/-- The `procs.filter(p => p.arrival <= t && p.remaining > 0)` ready list of
`srtf`, as indices in original order. -/
def srtfReady (procs : List Proc) (rem : List Nat) (t : Nat) : List Nat :=
  (List.range procs.length).filter
    (fun k => decide (arrAt procs k ≤ t) && decide (0 < remAt rem k))

/-- The unconditional `schedule[schedule.length-1].end = t` close used when a
process finishes. -/
def setLastEnd (sched : List SegO) (t : Nat) : List SegO :=
  match sched.getLast? with
  | none => sched
  | some s => sched.dropLast ++ [{ s with «end» := some t }]

/-- The guarded close on a context switch:
`if(current && schedule.length && schedule[last].end === null)`. -/
def closeOpen (cur : Option Nat) (sched : List SegO) (t : Nat) : List SegO :=
  match cur with
  | none => sched
  | some _ =>
    match sched.getLast? with
    | none => sched
    | some s =>
      if s.«end» = none then sched.dropLast ++ [{ s with «end» := some t }] else sched

/-- Dispatch part of one `srtf` iteration, for selected process `next`: open a
new segment exactly when the selected pid differs from the running one, run one
unit, and close the segment when the running process finishes. -/
def srtfRun (procs : List Proc) (st : SrtfState) (next : Nat) : SrtfState :=
  let newSeg : Bool :=
    match st.cur with
    | none => true
    | some c => pidAt procs c != pidAt procs next
  let cur₁ : Option Nat := if newSeg then some next else st.cur
  let sched₁ : List SegO :=
    if newSeg then closeOpen st.cur st.sched st.t ++ [⟨pidAt procs next, st.t, none⟩]
    else st.sched
  let runIdx := cur₁.getD 0
  let rem₁ := st.rem.set runIdx (remAt st.rem runIdx - 1)
  let t₁ := st.t + 1
  if remAt rem₁ runIdx = 0 then ⟨rem₁, t₁, none, setLastEnd sched₁ t₁⟩
  else ⟨rem₁, t₁, cur₁, sched₁⟩

/-- One iteration of the `srtf` while-body: idle tick when nothing is ready,
otherwise dispatch the head of the stable sort by remaining time. -/
def srtfStep (procs : List Proc) (st : SrtfState) : SrtfState :=
  match List.insertionSort (fun a b => remAt st.rem a ≤ remAt st.rem b)
      (srtfReady procs st.rem st.t) with
  | [] => { st with t := st.t + 1 }
  | next :: _ => srtfRun procs st next

/-- The `while(procs.some(p => p.remaining > 0))` loop of `srtf`. -/
def srtfGo (procs : List Proc) : Nat → SrtfState → Option (List SegO)
  | 0, _ => none
  | fuel + 1, st =>
    if st.rem.any (fun r => decide (0 < r)) then srtfGo procs fuel (srtfStep procs st)
    else some st.sched

/-- Embedding of `srtf(processes)`. -/
def srtf (processes : List Proc) : Option (List SegO) :=
  let rem₀ := processes.map (·.burst)
  srtfGo processes (rem₀.sum * (maxArrival processes + 1) + maxArrival processes + 1)
    ⟨rem₀, minArrival processes, none, []⟩

/-- Instrumentation of one `srtf` tick with the claimed tie rule: the tick
violates "ties favor the currently running process" when a process is running,
its remaining time is at most every ready remaining time (so it is tied for
the minimum), and yet a different process is selected. -/
def srtfTickViol (procs : List Proc) (st : SrtfState) : Bool :=
  match List.insertionSort (fun a b => remAt st.rem a ≤ remAt st.rem b)
      (srtfReady procs st.rem st.t) with
  | [] => false
  | next :: _ =>
    match st.cur with
    | none => false
    | some c =>
      ((srtfReady procs st.rem st.t).all (fun k => decide (remAt st.rem c ≤ remAt st.rem k)))
        && (next != c)

/-- Runs the `srtf` loop and reports whether any tick violated the claimed
"no needless preemption" tie rule. -/
def srtfViolGo (procs : List Proc) : Nat → SrtfState → Option Bool
  | 0, _ => none
  | fuel + 1, st =>
    if st.rem.any (fun r => decide (0 < r)) then
      (srtfViolGo procs fuel (srtfStep procs st)).map (fun b => srtfTickViol procs st || b)
    else some false

/-- Whether an `srtf` run ever preempts a running process that is tied for the
minimum remaining time. -/
def srtfNeedlessPreempt (processes : List Proc) : Option Bool :=
  let rem₀ := processes.map (·.burst)
  srtfViolGo processes (rem₀.sum * (maxArrival processes + 1) + maxArrival processes + 1)
    ⟨rem₀, minArrival processes, none, []⟩

/-- Mutable state of the `roundRobin` loop: per-index remaining times (indices
into the arrival-sorted clone), the FIFO ready queue, the next-arrival cursor
`i`, the clock, and the schedule. -/
structure RRState where
  rem : List Nat
  ready : List Nat
  i : Nat
  t : Nat
  sched : List Seg
deriving Repr, DecidableEq

/-- The `while(i < procs.length && procs[i].arrival <= t)` enqueue loop of
`roundRobin`; `procs.length - i` iterations always suffice. -/
def enqGo (procs : List Proc) (t : Nat) : Nat → List Nat → Nat → List Nat × Nat
  | 0, rdy, i => (rdy, i)
  | f + 1, rdy, i =>
    if i < procs.length ∧ arrAt procs i ≤ t then enqGo procs t f (rdy ++ [i]) (i + 1)
    else (rdy, i)

/-- Enqueue every process that has arrived by time `t`, starting at cursor
`i`. -/
def enqueueArrived (procs : List Proc) (t : Nat) (rdy : List Nat) (i : Nat) : List Nat × Nat :=
  enqGo procs t (procs.length - i) rdy i

/-- One dispatch slice of `roundRobin`: run the queue head `k` for
`min(quantum, remaining)` units, enqueue the arrivals of that slice, then
re-enqueue the preempted process behind them. -/
def rrDispatch (procs : List Proc) (q : Nat) (st : RRState) (k : Nat) (rest : List Nat)
    (i₁ : Nat) : RRState :=
  let run := min q (remAt st.rem k)
  let t₁ := st.t + run
  let rem₁ := st.rem.set k (remAt st.rem k - run)
  let (ready₂, i₂) := enqueueArrived procs t₁ rest i₁
  let ready₃ := if 0 < remAt rem₁ k then ready₂ ++ [k] else ready₂
  ⟨rem₁, ready₃, i₂, t₁, st.sched ++ [⟨pidAt procs k, st.t, t₁⟩]⟩

/-- Loop of `roundRobin`: dispatch the queue head, or jump the clock to the
next arrival when the queue is empty. -/
def rrGo (procs : List Proc) (q : Nat) : Nat → RRState → Option (List Seg)
  | 0, _ => none
  | fuel + 1, st =>
    if 0 < st.ready.length ∨ st.i < procs.length then
      match enqueueArrived procs st.t st.ready st.i with
      | ([], i₁) =>
        rrGo procs q fuel
          { st with t := ((procs.get? i₁).map (·.arrival)).getD (st.t + 1), ready := [], i := i₁ }
      | (k :: rest, i₁) => rrGo procs q fuel (rrDispatch procs q st k rest i₁)
    else some st.sched

/-- Embedding of `roundRobin(processes, quantum)` (the clone is sorted stably
by arrival first).  The fuel is proved sufficient whenever `quantum ≥ 1` and
every burst is positive; with `quantum = 0` the JS loop genuinely never
terminates and the embedding returns `none`. -/
def roundRobin (processes : List Proc) (quantum : Nat) : Option (List Seg) :=
  let procs := List.insertionSort (fun a b => a.arrival ≤ b.arrival) processes
  rrGo procs quantum (2 * (procs.map (·.burst)).sum + 2 * procs.length + 2)
    ⟨procs.map (·.burst), [], 0, ((procs.head?).map (·.arrival)).getD 0, []⟩

def missCount (tl : List TLStep) : Nat := tl.countP (fun s => !s.hit)

/-- Work vector obtained by replaying a finish sequence from a starting work
vector, accumulating each finished process's allocation (spec wording). -/
def replayWork (allocM : MatI) (work : VecI) (seq : List Nat) : VecI :=
  seq.foldl (fun w i => addAlloc allocM w i) work

/-- Indices not yet finished, in increasing order. -/
def pendingOf (n : Nat) (finish : List Bool) : List Nat :=
  (List.range n).filter (fun i => finish.getD i false = false)

/-- Number of unfinished entries. -/
def countFalse (l : List Bool) : Nat := l.countP (fun b => !b)

/-- Invariant of the `isSafe` loop state, relative to the initial
`available`. -/
def BGood (need allocM : MatI) (available : VecI) (n : Nat) (st : BState) : Prop :=
  st.work = replayWork allocM available st.seq ∧
  checkSeq need allocM available st.seq = true ∧
  st.seq.Nodup ∧
  (∀ x ∈ st.seq, x < n ∧ st.finish.getD x false = true) ∧
  (∀ k, k < n → st.finish.getD k false = true → k ∈ st.seq) ∧
  st.finish.length = n

/-- Executed time per pid in an `srtf` schedule read at clock `t`: an open
segment (`end = null`) has run from its start to the current clock. -/
def sumDurAtO (t : Nat) (pid : String) (segs : List SegO) : Nat :=
  ((segs.filter (fun s => s.pid == pid)).map (fun s => (s.«end».getD t) - s.start)).sum

/-- Structural invariant on the `current` pointer of the `srtf` loop: when no
process runs every segment is closed; when `c` runs, it is in range, unfinished
and arrived, and the schedule is closed segments followed by one open segment
carrying its pid. -/
def srtfCurInv (procs : List Proc) (st : SrtfState) : Prop :=
  match st.cur with
  | none => ∀ s ∈ st.sched, s.«end» ≠ none
  | some c => c < procs.length ∧ 0 < remAt st.rem c ∧ arrAt procs c ≤ st.t ∧
      ∃ init o, st.sched = init ++ [o] ∧ o.«end» = none ∧ o.pid = pidAt procs c ∧
        o.start ≤ st.t ∧ ∀ s ∈ init, s.«end» ≠ none

/-- C4 (counterexample): on the reference string `7 0 1 2 0 3 0 4 2 3 0 3 2`
with 3 frames the code does NOT report 9 FIFO faults and 10 LRU faults. -/
theorem C4_counterexample :
    ¬ ((fifoPage [7, 0, 1, 2, 0, 3, 0, 4, 2, 3, 0, 3, 2] 3).faults = 9 ∧
       (lruPage [7, 0, 1, 2, 0, 3, 0, 4, 2, 3, 0, 3, 2] 3).faults = 10) := by
  decide

/-- C4 (amended): on the classic reference string with 3 frames, `fifoPage`
reports exactly 10 faults and `lruPage` exactly 9, and the intermediate frame
snapshots match the hand simulation of the circular-pointer FIFO rule and the
exact-recency LRU rule (steps 4, 7 and 10 shown). -/
theorem C4_page_counts :
    (fifoPage [7, 0, 1, 2, 0, 3, 0, 4, 2, 3, 0, 3, 2] 3).faults = 10 ∧
    (lruPage [7, 0, 1, 2, 0, 3, 0, 4, 2, 3, 0, 3, 2] 3).faults = 9 ∧
    (fifoPage [7, 0, 1, 2, 0, 3, 0, 4, 2, 3, 0, 3, 2] 3).timeline.getD 4 default =
      ⟨4, 0, [some 2, some 0, some 1], true⟩ ∧
    (fifoPage [7, 0, 1, 2, 0, 3, 0, 4, 2, 3, 0, 3, 2] 3).timeline.getD 7 default =
      ⟨7, 4, [some 4, some 3, some 0], false⟩ ∧
    (lruPage [7, 0, 1, 2, 0, 3, 0, 4, 2, 3, 0, 3, 2] 3).timeline.getD 7 default =
      ⟨7, 4, [some 4, some 0, some 3], false⟩ ∧
    (lruPage [7, 0, 1, 2, 0, 3, 0, 4, 2, 3, 0, 3, 2] 3).timeline.getD 10 default =
      ⟨10, 0, [some 0, some 3, some 2], false⟩ := by
  refine ⟨rfl, rfl, rfl, rfl, rfl, rfl⟩

/-- C6 (counterexample): with head 5 and queue `[7, 3]` both requests are at
distance 2, yet `pathSSTF` visits 7 (the higher cylinder) first. -/
theorem C6_counterexample :
    pathSSTF [7, 3] 5 = [5, 7, 3] ∧ distN 7 5 = distN 3 5 ∧ (3 : Nat) < 7 := by
  decide

/-- C5 (counterexample): for the distinct request set `[5]` (within bound 10)
and head 5, the requested cylinder 5 appears twice in the FCFS and SSTF paths,
not exactly once. -/
theorem C5_counterexample :
    ([5] : List Nat).Nodup ∧ (5 : Nat) ≤ 10 ∧
    (pathFCFS [5] 5).count 5 = 2 ∧ (pathSSTF [5] 5).count 5 = 2 := by
  decide

/-- C7 (counterexample): no validation error exists.  `isSafe` on a
dimension-mismatched input (rows of length 2 against a single resource) and on
an allocation exceeding `max` computes and returns an ordinary result, and
`roundRobin` with quantum 0 never returns at all. -/
theorem C7_counterexample :
    isSafe [1] [[1, 1]] [[0, 0]] = some ⟨true, [0], [[1]]⟩ ∧
    isSafe [0] [[0]] [[1]] = some ⟨true, [0], [[-1]]⟩ ∧
    roundRobin [⟨"P1", 0, 1, 0⟩] 0 = none := by
  refine ⟨rfl, rfl, rfl⟩

/-- C8: the empty process list yields an empty schedule under all five
schedulers, and `computeMetrics` of an empty schedule and empty process list
yields no metrics rows, utilization 0 and throughput 0 (no division by
zero). -/
theorem C8_empty (q : Nat) (hq : 1 ≤ q) :
    fcfs [] = [] ∧ sjf [] = some [] ∧ srtf [] = some [] ∧
    priorityNonPreemptive [] = some [] ∧ roundRobin [] q = some [] ∧
    computeMetrics [] [] = ⟨[], 0, 0⟩ := by
  refine ⟨rfl, rfl, rfl, rfl, rfl, rfl⟩

/-- C8 (witness): the hypothesis `1 ≤ q` holds at `q = 2`. -/
theorem C8_empty_witness :
    1 ≤ 2 ∧ (fcfs [] = [] ∧ sjf [] = some [] ∧ srtf [] = some [] ∧
      priorityNonPreemptive [] = some [] ∧ roundRobin [] 2 = some [] ∧
      computeMetrics [] [] = ⟨[], 0, 0⟩) :=
  ⟨by decide, C8_empty 2 (by decide)⟩

theorem missCount_append (a b : List TLStep) : missCount (a ++ b) = missCount a + missCount b :=
  List.countP_append _ a b

theorem missCount_one_true (i p : Nat) (fr : List (Option Nat)) :
    missCount [⟨i, p, fr, true⟩] = 0 := rfl

theorem missCount_one_false (i p : Nat) (fr : List (Option Nat)) :
    missCount [⟨i, p, fr, false⟩] = 1 := rfl

theorem fifoGo_spec :
    ∀ (refs : List Nat) (frames i : Nat) (fr : List (Option Nat)) (ptr f : Nat) (tl : List TLStep),
      (fifoGo frames refs i fr ptr f tl).timeline.length = tl.length + refs.length ∧
      (fifoGo frames refs i fr ptr f tl).faults + missCount tl =
        f + missCount (fifoGo frames refs i fr ptr f tl).timeline := by
  intro refs
  induction refs with
  | nil => intro frames i fr ptr f tl; simp [fifoGo]
  | cons p rest ih =>
    intro frames i fr ptr f tl
    cases hc : fr.contains (some p) with
    | true =>
      simp at hc
      have hg : fifoGo frames (p :: rest) i fr ptr f tl =
          fifoGo frames rest (i + 1) fr ptr f (tl ++ [⟨i, p, fr, true⟩]) := by
        simp [fifoGo, hc]
      rw [hg]
      obtain ⟨h1, h2⟩ := ih frames (i + 1) fr ptr f (tl ++ [⟨i, p, fr, true⟩])
      rw [missCount_append, missCount_one_true] at h2
      constructor
      · rw [h1]; simp; omega
      · omega
    | false =>
      simp at hc
      have hg : fifoGo frames (p :: rest) i fr ptr f tl =
          fifoGo frames rest (i + 1) (fr.set ptr (some p)) ((ptr + 1) % frames) (f + 1)
            (tl ++ [⟨i, p, fr.set ptr (some p), false⟩]) := by
        simp [fifoGo, hc]
      rw [hg]
      obtain ⟨h1, h2⟩ :=
        ih frames (i + 1) (fr.set ptr (some p)) ((ptr + 1) % frames) (f + 1)
          (tl ++ [⟨i, p, fr.set ptr (some p), false⟩])
      rw [missCount_append, missCount_one_false] at h2
      constructor
      · rw [h1]; simp; omega
      · omega

theorem lruGo_spec :
    ∀ (refs : List Nat) (frames i : Nat) (fa : List Nat) (lu : Nat → Option Nat) (f : Nat)
      (tl : List TLStep),
      (lruGo frames refs i fa lu f tl).1.length = tl.length + refs.length ∧
      (lruGo frames refs i fa lu f tl).2 + missCount tl =
        f + missCount (lruGo frames refs i fa lu f tl).1 := by
  intro refs
  induction refs with
  | nil => intro frames i fa lu f tl; simp [lruGo]
  | cons p rest ih =>
    intro frames i fa lu f tl
    cases hc : fa.contains p with
    | true =>
      simp at hc
      have hg : lruGo frames (p :: rest) i fa lu f tl =
          lruGo frames rest (i + 1) fa (fun q => if q = p then some i else lu q) f
            (tl ++ [⟨i, p, fa.map some ++ List.replicate (frames - fa.length) none, true⟩]) := by
        simp [lruGo, hc]
      rw [hg]
      obtain ⟨h1, h2⟩ :=
        ih frames (i + 1) fa (fun q => if q = p then some i else lu q) f
          (tl ++ [⟨i, p, fa.map some ++ List.replicate (frames - fa.length) none, true⟩])
      rw [missCount_append, missCount_one_true] at h2
      constructor
      · rw [h1]; simp; omega
      · omega
    | false =>
      simp at hc
      have hg : lruGo frames (p :: rest) i fa lu f tl =
          lruGo frames rest (i + 1)
            (if fa.length < frames then fa ++ [p]
             else fa.set (fa.indexOf (lruEvictPick fa lu)) p)
            (fun q => if q = p then some i else lu q) (f + 1)
            (tl ++ [⟨i, p,
              (if fa.length < frames then fa ++ [p]
               else fa.set (fa.indexOf (lruEvictPick fa lu)) p).map some, false⟩]) := by
        simp [lruGo, hc]
      rw [hg]
      obtain ⟨h1, h2⟩ :=
        ih frames (i + 1)
          (if fa.length < frames then fa ++ [p]
           else fa.set (fa.indexOf (lruEvictPick fa lu)) p)
          (fun q => if q = p then some i else lu q) (f + 1)
          (tl ++ [⟨i, p,
            (if fa.length < frames then fa ++ [p]
             else fa.set (fa.indexOf (lruEvictPick fa lu)) p).map some, false⟩])
      rw [missCount_append, missCount_one_false] at h2
      constructor
      · rw [h1]; simp; omega
      · omega

theorem missCount_normalize (frames : Nat) (l : List TLStep) :
    missCount (l.map (lruNormalize frames)) = missCount l := by
  unfold missCount
  rw [List.countP_map]
  congr 1
  funext t
  simp only [Function.comp, lruNormalize]
  split <;> rfl

/-- C9: for every reference string and frame count at least 1, both page
simulators return one timeline row per reference, and the reported fault
counter equals the number of rows whose `hit` field is false. -/
theorem C9_page_consistency (refs : List Nat) (frames : Nat) (hf : 1 ≤ frames) :
    (fifoPage refs frames).timeline.length = refs.length ∧
    (fifoPage refs frames).faults = missCount (fifoPage refs frames).timeline ∧
    (lruPage refs frames).timeline.length = refs.length ∧
    (lruPage refs frames).faults = missCount (lruPage refs frames).timeline := by
  obtain ⟨hf1, hf2⟩ := fifoGo_spec refs frames 0 (List.replicate frames none) 0 0 []
  obtain ⟨hl1, hl2⟩ := lruGo_spec refs frames 0 [] (fun _ => none) 0 []
  have hmc : missCount ([] : List TLStep) = 0 := rfl
  rw [hmc] at hf2 hl2
  have hlru : lruPage refs frames =
      ⟨(lruGo frames refs 0 [] (fun _ => none) 0 []).1.map (lruNormalize frames),
        (lruGo frames refs 0 [] (fun _ => none) 0 []).2⟩ := rfl
  refine ⟨?_, ?_, ?_, ?_⟩
  · simpa [fifoPage] using hf1
  · simpa [fifoPage] using hf2
  · rw [hlru]; simpa using hl1
  · rw [hlru]
    show (lruGo frames refs 0 [] (fun _ => none) 0 []).2 =
      missCount ((lruGo frames refs 0 [] (fun _ => none) 0 []).1.map (lruNormalize frames))
    rw [missCount_normalize]
    omega

/-- C9 (witness): the consistency property at a small concrete instance. -/
theorem C9_page_consistency_witness :
    1 ≤ 3 ∧
    ((fifoPage [7, 0, 1, 2] 3).timeline.length = [7, 0, 1, 2].length ∧
      (fifoPage [7, 0, 1, 2] 3).faults = missCount (fifoPage [7, 0, 1, 2] 3).timeline ∧
      (lruPage [7, 0, 1, 2] 3).timeline.length = [7, 0, 1, 2].length ∧
      (lruPage [7, 0, 1, 2] 3).faults = missCount (lruPage [7, 0, 1, 2] 3).timeline) :=
  ⟨by decide, C9_page_consistency [7, 0, 1, 2] 3 (by decide)⟩

theorem lastIdxWith_pid {ms : List PMetric} {pid : String} {j : Nat}
    (h : lastIdxWith ms pid = some j) : ∃ mj, ms[j]? = some mj ∧ mj.pid = pid := by
  unfold lastIdxWith at h
  cases hl : (ms.enum.filter (fun im => im.2.pid == pid)).getLast? with
  | none => rw [hl] at h; simp at h
  | some x =>
    rw [hl] at h
    simp at h
    have hx := List.mem_of_getLast?_eq_some hl
    obtain ⟨hmem, hcond⟩ := List.mem_filter.1 hx
    have hget : ms[x.1]? = some x.2 := List.mem_enum_iff_getElem?.1 hmem
    refine ⟨x.2, h ▸ hget, by simpa using hcond⟩

theorem applySeg_getElem {ms : List PMetric} {s : Seg} {k : Nat} {m : PMetric}
    (hm : ms[k]? = some m) (hne : s.pid ≠ m.pid) : (applySeg ms s)[k]? = some m := by
  unfold applySeg
  cases hl : lastIdxWith ms s.pid with
  | none => exact hm
  | some j =>
    obtain ⟨mj, hj, hjpid⟩ := lastIdxWith_pid hl
    have hkj : k ≠ j := by
      rintro rfl
      rw [hm] at hj
      cases hj
      exact hne hjpid.symm
    rw [List.getElem?_map, List.getElem?_enum, hm]
    simp [hkj]

theorem foldl_applySeg_getElem (sched : List Seg) :
    ∀ (ms : List PMetric) (k : Nat) (m : PMetric),
      ms[k]? = some m → (∀ s ∈ sched, s.pid ≠ m.pid) →
      (sched.foldl applySeg ms)[k]? = some m := by
  induction sched with
  | nil => intro ms k m hm _; simpa using hm
  | cons s rest ih =>
    intro ms k m hm hpid
    simp only [List.foldl_cons]
    exact ih (applySeg ms s) k m
      (applySeg_getElem hm (hpid s (List.mem_cons_self s rest)))
      (fun s' hs' => hpid s' (List.mem_cons_of_mem s hs'))

theorem sumDur_eq_zero {pid : String} {segs : List Seg} (h : ∀ s ∈ segs, s.pid ≠ pid) :
    sumDur pid segs = 0 := by
  unfold sumDur
  have : segs.filter (fun s => s.pid == pid) = [] := by
    apply List.filter_eq_nil_iff.2
    intro s hs
    simpa using h s hs
  rw [this]
  rfl

/-- C10: a process whose pid occurs in no schedule segment keeps
`start = null` and `completion = null`, and gets `turnaround = 0`,
`waiting = 0` and `response = 0` (its arrival substituting for the missing
times). -/
theorem C10_never_run (schedule : List Seg) (processes : List Proc) (k : Nat) (p : Proc)
    (hk : processes[k]? = some p) (hnone : ∀ s ∈ schedule, s.pid ≠ p.pid) :
    ∃ m, (computeMetrics schedule processes).metrics[k]? = some m ∧
      m.pid = p.pid ∧ m.start = none ∧ m.completion = none ∧
      m.turnaround = 0 ∧ m.waiting = 0 ∧ m.response = some 0 := by
  have h0 : (processes.map pmInit)[k]? = some (pmInit p) := by
    rw [List.getElem?_map, hk]; rfl
  have h1 : (schedule.foldl applySeg (processes.map pmInit))[k]? = some (pmInit p) :=
    foldl_applySeg_getElem schedule (processes.map pmInit) k (pmInit p) h0
      (by intro s hs; simpa [pmInit] using hnone s hs)
  refine ⟨finishMetric schedule (pmInit p), ?_, ?_⟩
  · show ((schedule.foldl applySeg (processes.map pmInit)).map (finishMetric schedule))[k]? =
      some (finishMetric schedule (pmInit p))
    rw [List.getElem?_map, h1]
    rfl
  · have hz : sumDur p.pid schedule = 0 := sumDur_eq_zero hnone
    simp [finishMetric, pmInit, hz]

/-- C10 (witness): a concrete process (`P2`) absent from the schedule. -/
theorem C10_never_run_witness :
    ([⟨"P1", 0, 7, 2⟩, ⟨"P2", 9, 4, 1⟩] : List Proc)[1]? = some ⟨"P2", 9, 4, 1⟩ ∧
    (∀ s ∈ ([⟨"P1", 0, 7⟩] : List Seg), s.pid ≠ "P2") ∧
    ∃ m, (computeMetrics [⟨"P1", 0, 7⟩] [⟨"P1", 0, 7, 2⟩, ⟨"P2", 9, 4, 1⟩]).metrics[1]? = some m ∧
      m.pid = "P2" ∧ m.start = none ∧ m.completion = none ∧
      m.turnaround = 0 ∧ m.waiting = 0 ∧ m.response = some 0 :=
  ⟨by decide, by decide,
    C10_never_run [⟨"P1", 0, 7⟩] [⟨"P1", 0, 7, 2⟩, ⟨"P2", 9, 4, 1⟩] 1 ⟨"P2", 9, 4, 1⟩
      (by decide) (by decide)⟩

theorem sstfFoldFrom (cur : Nat) :
    ∀ (q : List Nat) (n i0 d0 : Nat),
      ((q.enumFrom n).foldl (sstfStepAcc cur) (i0, some d0) = (i0, some d0) ∧
        ∀ k, k < q.length → d0 ≤ distN (q.getD k 0) cur) ∨
      (∃ pos, pos < q.length ∧
        (q.enumFrom n).foldl (sstfStepAcc cur) (i0, some d0) =
          (n + pos, some (distN (q.getD pos 0) cur)) ∧
        distN (q.getD pos 0) cur < d0 ∧
        (∀ k, k < q.length → distN (q.getD pos 0) cur ≤ distN (q.getD k 0) cur) ∧
        (∀ k, k < pos → distN (q.getD pos 0) cur < distN (q.getD k 0) cur)) := by
  intro q
  induction q with
  | nil => intro n i0 d0; left; exact ⟨rfl, by intro k hk; simp at hk⟩
  | cons v rest ih =>
    intro n i0 d0
    have hstep : (((v :: rest).enumFrom n).foldl (sstfStepAcc cur) (i0, some d0)) =
        (rest.enumFrom (n + 1)).foldl (sstfStepAcc cur)
          (if distN v cur < d0 then (n, some (distN v cur)) else (i0, some d0)) := by
      simp only [List.enumFrom, List.foldl_cons, sstfStepAcc]
    by_cases hv : distN v cur < d0
    · rw [hstep, if_pos hv]
      rcases ih (n + 1) n (distN v cur) with ⟨heq, hall⟩ | ⟨pos, hlt, heq, hless, hmin, hstrict⟩
      · right
        refine ⟨0, by simp, ?_, by simpa using hv, ?_, ?_⟩
        · simp [heq]
        · intro k hk
          cases k with
          | zero => simp
          | succ k' => simpa using hall k' (by simpa using hk)
        · intro k hk; omega
      · right
        refine ⟨pos + 1, by simpa using hlt, ?_, ?_, ?_, ?_⟩
        · rw [heq]
          simp only [List.getD_cons_succ, Prod.mk.injEq]
          exact ⟨by omega, trivial⟩
        · have : distN ((v :: rest).getD (pos + 1) 0) cur < distN v cur := by simpa using hless
          omega
        · intro k hk
          cases k with
          | zero =>
            simp only [List.getD]
            have : distN (rest.getD pos 0) cur < distN v cur := by simpa using hless
            simp at this ⊢
            omega
          | succ k' => simpa using hmin k' (by simpa using hk)
        · intro k hk
          cases k with
          | zero =>
            have : distN (rest.getD pos 0) cur < distN v cur := by simpa using hless
            simpa using this
          | succ k' => simpa using hstrict k' (by omega)
    · rw [hstep, if_neg hv]
      rcases ih (n + 1) i0 d0 with ⟨heq, hall⟩ | ⟨pos, hlt, heq, hless, hmin, hstrict⟩
      · left
        refine ⟨heq, ?_⟩
        intro k hk
        cases k with
        | zero => simpa using Nat.le_of_not_lt hv
        | succ k' => simpa using hall k' (by simpa using hk)
      · right
        refine ⟨pos + 1, by simpa using hlt, ?_, ?_, ?_, ?_⟩
        · rw [heq]
          simp only [List.getD_cons_succ, Prod.mk.injEq]
          exact ⟨by omega, trivial⟩
        · have : distN (rest.getD pos 0) cur < d0 := by simpa using hless
          simpa using this
        · intro k hk
          cases k with
          | zero =>
            have h1 : distN (rest.getD pos 0) cur < d0 := by simpa using hless
            have h2 : d0 ≤ distN v cur := Nat.le_of_not_lt hv
            simp only [List.getD] at h1 ⊢
            simp at h1 ⊢
            omega
          | succ k' => simpa using hmin k' (by simpa using hk)
        · intro k hk
          cases k with
          | zero =>
            have h1 : distN (rest.getD pos 0) cur < d0 := by simpa using hless
            have h2 : d0 ≤ distN v cur := Nat.le_of_not_lt hv
            simp only [List.getD] at h1 ⊢
            simp at h1 ⊢
            omega
          | succ k' => simpa using hstrict k' (by omega)

theorem sstfPickIdx_spec (cur : Nat) :
    ∀ (q : List Nat), q ≠ [] →
      sstfPickIdx cur q < q.length ∧
      (∀ k, k < q.length → distN (q.getD (sstfPickIdx cur q) 0) cur ≤ distN (q.getD k 0) cur) ∧
      (∀ k, k < sstfPickIdx cur q → distN (q.getD (sstfPickIdx cur q) 0) cur < distN (q.getD k 0) cur) := by
  intro q hq
  cases q with
  | nil => exact absurd rfl hq
  | cons v rest =>
    have h0 : sstfPickIdx cur (v :: rest) =
        ((rest.enumFrom 1).foldl (sstfStepAcc cur) (0, some (distN v cur))).1 := rfl
    rcases sstfFoldFrom cur rest 1 0 (distN v cur) with ⟨heq, hall⟩ |
      ⟨pos, hlt, heq, hless, hmin, hstrict⟩
    · have hpick : sstfPickIdx cur (v :: rest) = 0 := by rw [h0, heq]
      rw [hpick]
      refine ⟨by simp, ?_, by intro k hk; omega⟩
      intro k hk
      cases k with
      | zero => simp
      | succ k' => simpa using hall k' (by simpa using hk)
    · have hpick : sstfPickIdx cur (v :: rest) = pos + 1 := by
        rw [h0, heq]
        simp [Nat.add_comm]
      rw [hpick]
      refine ⟨by simpa using hlt, ?_, ?_⟩
      · intro k hk
        cases k with
        | zero => simpa using Nat.le_of_lt hless
        | succ k' => simpa using hmin k' (by simpa using hk)
      · intro k hk
        cases k with
        | zero => simpa using hless
        | succ k' => simpa using hstrict k' (by omega)

/-- C6 (amended): `pathSSTF` picks, at every head position, the first
minimal-distance request in remaining-queue order — every earlier queue entry
is strictly farther, so an equidistant lower cylinder later in the queue is
NOT visited first; the first visited cylinder is exactly the picked one. -/
theorem C6_sstf_first_min (cur : Nat) (q : List Nat) (hq : q ≠ []) :
    sstfPickIdx cur q < q.length ∧
    (∀ k, k < q.length → distN (q.getD (sstfPickIdx cur q) 0) cur ≤ distN (q.getD k 0) cur) ∧
    (∀ k, k < sstfPickIdx cur q → distN (q.getD (sstfPickIdx cur q) 0) cur < distN (q.getD k 0) cur) ∧
    (pathSSTF q cur).tail.head? = some (q.getD (sstfPickIdx cur q) 0) := by
  obtain ⟨h1, h2, h3⟩ := sstfPickIdx_spec cur q hq
  refine ⟨h1, h2, h3, ?_⟩
  cases q with
  | nil => exact absurd rfl hq
  | cons v rest => rfl

/-- C6 (witness): head 5 and queue `[7, 3]` satisfy the amended tie rule. -/
theorem C6_sstf_first_min_witness :
    ([7, 3] : List Nat) ≠ [] ∧
    (sstfPickIdx 5 [7, 3] < ([7, 3] : List Nat).length ∧
      (∀ k, k < ([7, 3] : List Nat).length →
        distN (([7, 3] : List Nat).getD (sstfPickIdx 5 [7, 3]) 0) 5 ≤
          distN (([7, 3] : List Nat).getD k 0) 5) ∧
      (∀ k, k < sstfPickIdx 5 [7, 3] →
        distN (([7, 3] : List Nat).getD (sstfPickIdx 5 [7, 3]) 0) 5 <
          distN (([7, 3] : List Nat).getD k 0) 5) ∧
      (pathSSTF [7, 3] 5).tail.head? = some (([7, 3] : List Nat).getD (sstfPickIdx 5 [7, 3]) 0)) :=
  ⟨by decide, C6_sstf_first_min 5 [7, 3] (by decide)⟩

theorem sstfGo_perm : ∀ (n : Nat) (q : List Nat) (cur : Nat), q.length = n →
    List.Perm (sstfGo n q cur) q := by
  intro n
  induction n with
  | zero =>
    intro q cur hlen
    rw [List.length_eq_zero] at hlen
    subst hlen
    rfl
  | succ n ih =>
    intro q cur hlen
    cases q with
    | nil => simp at hlen
    | cons v rest =>
      have hq : (v :: rest) ≠ [] := by simp
      obtain ⟨hlt, -, -⟩ := sstfPickIdx_spec cur (v :: rest) hq
      have hunf : sstfGo (n + 1) (v :: rest) cur =
          (v :: rest).getD (sstfPickIdx cur (v :: rest)) 0 ::
            sstfGo n ((v :: rest).eraseIdx (sstfPickIdx cur (v :: rest)))
              ((v :: rest).getD (sstfPickIdx cur (v :: rest)) 0) := by
        simp [sstfGo]
      have hlen' : ((v :: rest).eraseIdx (sstfPickIdx cur (v :: rest))).length = n := by
        have := List.length_eraseIdx_add_one hlt
        omega
      have hmemg : (v :: rest).getD (sstfPickIdx cur (v :: rest)) 0 =
          (v :: rest).get ⟨sstfPickIdx cur (v :: rest), hlt⟩ := by
        rw [List.getD_eq_getElem?_getD, List.getElem?_eq_getElem hlt]
        rfl
      have h2 : List.Perm (v :: rest)
          ((v :: rest).get ⟨sstfPickIdx cur (v :: rest), hlt⟩ ::
            (v :: rest).eraseIdx (sstfPickIdx cur (v :: rest))) :=
        (List.perm_cons_erase (List.getElem_mem hlt)).trans ((List.erase_getElem hlt).cons _)
      rw [hunf, hmemg]
      exact ((ih _ _ hlen').cons _).trans h2.symm

theorem filterSplitPerm (head : Nat) (q : List Nat) :
    List.Perm (q.filter (fun x => head ≤ x) ++ q.filter (fun x => x < head)) q := by
  induction q with
  | nil => rfl
  | cons x xs ih =>
    by_cases h : head ≤ x
    · have h1 : (decide (head ≤ x)) = true := by simpa using h
      have h2 : (decide (x < head)) = false := by simp [Nat.not_lt.2 h]
      simp only [List.filter_cons, h1, h2, if_true, if_false, List.cons_append]
      exact ih.cons x
    · have h1 : (decide (head ≤ x)) = false := by simpa using h
      have h2 : (decide (x < head)) = true := by simp [Nat.lt_of_not_le h]
      simp only [List.filter_cons, h1, h2, if_true, if_false]
      exact List.perm_middle.trans (ih.cons x)

/-- C5 (amended): every path starts at the head, and every requested cylinder
appears exactly once among the visiting entries — the path after the initial
head entry for FCFS and SSTF, and the path after the initial head entry with
the appended boundary stops removed (`max` for SCAN; `max` and `0` for
C-SCAN).  A request equal to the head or to a boundary stop therefore recurs
in the full path, which is what the counterexample exhibits. -/
theorem C5_disk_paths (q : List Nat) (head m : Nat) (hnd : q.Nodup) (hbound : ∀ c ∈ q, c ≤ m) :
    (pathFCFS q head = head :: q ∧ ∀ c ∈ q, (pathFCFS q head).tail.count c = 1) ∧
    ((pathSSTF q head).head? = some head ∧ List.Perm (pathSSTF q head).tail q ∧
      ∀ c ∈ q, (pathSSTF q head).tail.count c = 1) ∧
    (∃ A B, pathSCAN q head m = head :: (A ++ m :: B) ∧ List.Perm (A ++ B) q ∧
      ∀ c ∈ q, (A ++ B).count c = 1) ∧
    (∃ A B, pathCSCAN q head m = head :: (A ++ m :: 0 :: B) ∧ List.Perm (A ++ B) q ∧
      ∀ c ∈ q, (A ++ B).count c = 1) := by
  have hq1 : ∀ c ∈ q, q.count c = 1 := fun c hc => List.count_eq_one_of_mem hnd hc
  have hsstf : List.Perm (pathSSTF q head).tail q := sstfGo_perm q.length q head rfl
  have hscanAB : List.Perm
      (sortAsc (q.filter (fun x => head ≤ x)) ++ (sortAsc (q.filter (fun x => x < head))).reverse)
      q :=
    (List.Perm.append (List.perm_insertionSort _ _)
      ((List.reverse_perm _).trans (List.perm_insertionSort _ _))).trans (filterSplitPerm head q)
  have hcscanAB : List.Perm
      (sortAsc (q.filter (fun x => head ≤ x)) ++ sortAsc (q.filter (fun x => x < head))) q :=
    (List.Perm.append (List.perm_insertionSort _ _) (List.perm_insertionSort _ _)).trans
      (filterSplitPerm head q)
  refine ⟨⟨rfl, ?_⟩, ⟨rfl, hsstf, ?_⟩, ?_, ?_⟩
  · intro c hc; exact hq1 c hc
  · intro c hc; rw [hsstf.count_eq]; exact hq1 c hc
  · refine ⟨sortAsc (q.filter (fun x => head ≤ x)),
      (sortAsc (q.filter (fun x => x < head))).reverse, rfl, hscanAB, ?_⟩
    intro c hc; rw [hscanAB.count_eq]; exact hq1 c hc
  · refine ⟨sortAsc (q.filter (fun x => head ≤ x)),
      sortAsc (q.filter (fun x => x < head)), rfl, hcscanAB, ?_⟩
    intro c hc; rw [hcscanAB.count_eq]; exact hq1 c hc

/-- C5 (witness): the amended invariant at the classic request queue. -/
theorem C5_disk_paths_witness :
    (([98, 183, 37, 122, 14, 124, 65, 67] : List Nat).Nodup ∧
      ∀ c ∈ ([98, 183, 37, 122, 14, 124, 65, 67] : List Nat), c ≤ 199) ∧
    ((pathFCFS [98, 183, 37, 122, 14, 124, 65, 67] 53 = 53 :: [98, 183, 37, 122, 14, 124, 65, 67] ∧
      ∀ c ∈ ([98, 183, 37, 122, 14, 124, 65, 67] : List Nat),
        (pathFCFS [98, 183, 37, 122, 14, 124, 65, 67] 53).tail.count c = 1) ∧
     ((pathSSTF [98, 183, 37, 122, 14, 124, 65, 67] 53).head? = some 53 ∧
      List.Perm (pathSSTF [98, 183, 37, 122, 14, 124, 65, 67] 53).tail
        [98, 183, 37, 122, 14, 124, 65, 67] ∧
      ∀ c ∈ ([98, 183, 37, 122, 14, 124, 65, 67] : List Nat),
        (pathSSTF [98, 183, 37, 122, 14, 124, 65, 67] 53).tail.count c = 1) ∧
     (∃ A B, pathSCAN [98, 183, 37, 122, 14, 124, 65, 67] 53 199 = 53 :: (A ++ 199 :: B) ∧
      List.Perm (A ++ B) [98, 183, 37, 122, 14, 124, 65, 67] ∧
      ∀ c ∈ ([98, 183, 37, 122, 14, 124, 65, 67] : List Nat), (A ++ B).count c = 1) ∧
     (∃ A B, pathCSCAN [98, 183, 37, 122, 14, 124, 65, 67] 53 199 = 53 :: (A ++ 199 :: 0 :: B) ∧
      List.Perm (A ++ B) [98, 183, 37, 122, 14, 124, 65, 67] ∧
      ∀ c ∈ ([98, 183, 37, 122, 14, 124, 65, 67] : List Nat), (A ++ B).count c = 1)) :=
  ⟨⟨by decide, by decide⟩,
    C5_disk_paths [98, 183, 37, 122, 14, 124, 65, 67] 53 199 (by decide) (by decide)⟩

/-- C3 (counterexample): with `P1(arrival 2, burst 2)` and `P2(arrival 0,
burst 4)`, at time 2 the running `P2` has remaining 2, tied with `P1`'s
remaining 2, yet `srtf` preempts `P2` (it runs 0-2 and 4-6 with `P1` taking
2-4): the monitored run reports a needless preemption. -/
theorem C3_counterexample :
    srtfNeedlessPreempt [⟨"P1", 2, 2, 0⟩, ⟨"P2", 0, 4, 0⟩] = some true ∧
    srtf [⟨"P1", 2, 2, 0⟩, ⟨"P2", 0, 4, 0⟩] =
      some [⟨"P2", 0, some 2⟩, ⟨"P1", 2, some 4⟩, ⟨"P2", 4, some 6⟩] :=
  ⟨rfl, rfl⟩

theorem insertionSortHead_firstMin (key : Nat → Nat) :
    ∀ (l : List Nat), l.Pairwise (· < ·) →
      ∀ x s', List.insertionSort (fun a b => key a ≤ key b) l = x :: s' →
        x ∈ l ∧ (∀ y ∈ l, key x ≤ key y) ∧ (∀ y ∈ l, y < x → key x < key y) := by
  intro l
  induction l with
  | nil => intro _ x s' h; simp [List.insertionSort] at h
  | cons a l ih =>
    intro hpw x s' h
    obtain ⟨hlt, hpw'⟩ := List.pairwise_cons.1 hpw
    rw [show List.insertionSort (fun a b => key a ≤ key b) (a :: l) =
        List.orderedInsert (fun a b => key a ≤ key b) a
          (List.insertionSort (fun a b => key a ≤ key b) l) from rfl] at h
    cases hs : List.insertionSort (fun a b => key a ≤ key b) l with
    | nil =>
      have hl : l = [] := by
        have hperm := List.perm_insertionSort (fun a b => key a ≤ key b) l
        rw [hs] at hperm
        exact hperm.symm.eq_nil
      rw [hs] at h
      simp only [List.orderedInsert] at h
      cases h
      subst hl
      refine ⟨List.mem_singleton_self a, ?_, ?_⟩
      · intro y hy; rw [List.mem_singleton.1 hy]
      · intro y hy hlt'; rw [List.mem_singleton.1 hy] at hlt'; omega
    | cons b s2 =>
      rw [hs] at h
      obtain ⟨hbmem, hbmin, hbfirst⟩ := ih hpw' b s2 hs
      by_cases hab : key a ≤ key b
      · have hins : List.orderedInsert (fun a b => key a ≤ key b) a (b :: s2) = a :: b :: s2 := by
          simp only [List.orderedInsert, if_pos hab]
        rw [hins] at h
        cases h
        refine ⟨List.mem_cons_self a l, ?_, ?_⟩
        · intro y hy
          rcases List.mem_cons.1 hy with rfl | hy'
          · exact Nat.le_refl _
          · exact Nat.le_trans hab (hbmin y hy')
        · intro y hy hylt
          rcases List.mem_cons.1 hy with rfl | hy'
          · omega
          · exact absurd hylt (by have := hlt y hy'; omega)
      · have hba : key b < key a := Nat.lt_of_not_le hab
        have hins : List.orderedInsert (fun a b => key a ≤ key b) a (b :: s2) =
            b :: List.orderedInsert (fun a b => key a ≤ key b) a s2 := by
          simp only [List.orderedInsert, if_neg hab]
        rw [hins] at h
        cases h
        refine ⟨List.mem_cons_of_mem a hbmem, ?_, ?_⟩
        · intro y hy
          rcases List.mem_cons.1 hy with rfl | hy'
          · exact Nat.le_of_lt hba
          · exact hbmin y hy'
        · intro y hy hylt
          rcases List.mem_cons.1 hy with rfl | hy'
          · exact hba
          · exact hbfirst y hy' hylt

theorem srtfReady_pairwise (procs : List Proc) (rem : List Nat) (t : Nat) :
    (srtfReady procs rem t).Pairwise (· < ·) :=
  (List.pairwise_lt_range procs.length).filter _

theorem setLastEnd_length (sched : List SegO) (t : Nat) :
    (setLastEnd sched t).length = sched.length := by
  unfold setLastEnd
  cases hl : sched.getLast? with
  | none => rfl
  | some s =>
    have hne : sched ≠ [] := by intro h; subst h; simp at hl
    have h1 : 1 ≤ sched.length := List.length_pos.2 hne
    simp only [List.length_append, List.length_dropLast, List.length_cons, List.length_nil]
    omega

theorem closeOpen_length (cur : Option Nat) (sched : List SegO) (t : Nat) :
    (closeOpen cur sched t).length = sched.length := by
  cases cur with
  | none => rfl
  | some c =>
    dsimp only [closeOpen]
    cases hl : sched.getLast? with
    | none => rfl
    | some s =>
      dsimp only
      have hne : sched ≠ [] := by intro h; subst h; simp at hl
      have h1 : 1 ≤ sched.length := List.length_pos.2 hne
      split
      · simp only [List.length_append, List.length_dropLast, List.length_cons, List.length_nil]
        omega
      · rfl

theorem srtfRun_sched_length (procs : List Proc) (st : SrtfState) (next : Nat) :
    (srtfRun procs st next).sched.length =
      st.sched.length +
        (if (match st.cur with
             | none => true
             | some c => pidAt procs c != pidAt procs next) = true then 1 else 0) := by
  unfold srtfRun
  cases hc : st.cur with
  | none =>
    simp only [eq_self_iff_true, if_true]
    split
    · simp [setLastEnd_length, closeOpen_length]
    · simp [closeOpen_length]
  | some c =>
    by_cases hpid : (pidAt procs c != pidAt procs next) = true
    · simp only [hpid, eq_self_iff_true, if_true]
      split
      · simp [setLastEnd_length, closeOpen_length]
      · simp [closeOpen_length]
    · have hpid' : (pidAt procs c != pidAt procs next) = false := by
        simpa using hpid
      simp only [hpid', Bool.false_eq_true, if_false]
      split
      · simp [setLastEnd_length]
      · rfl

/-- C3 (amended): whenever `srtf` has a nonempty ready list, the dispatched
process is the FIRST minimal-remaining entry of the ready list (which lists
arrived unfinished processes in original input order): it has minimal
remaining time and every earlier-positioned ready process has strictly greater
remaining time.  The running process therefore keeps the CPU only when it
precedes every tied process in input order — a tie with an earlier-positioned
process preempts it.  A new schedule segment is appended exactly when no
process is running or the selected pid differs from the running pid. -/
theorem C3_srtf_select (procs : List Proc) (st : SrtfState) (next : Nat) (s' : List Nat)
    (hsort : List.insertionSort (fun a b => remAt st.rem a ≤ remAt st.rem b)
        (srtfReady procs st.rem st.t) = next :: s') :
    next ∈ srtfReady procs st.rem st.t ∧
    (∀ k ∈ srtfReady procs st.rem st.t, remAt st.rem next ≤ remAt st.rem k) ∧
    (∀ k ∈ srtfReady procs st.rem st.t, k < next → remAt st.rem next < remAt st.rem k) ∧
    srtfStep procs st = srtfRun procs st next ∧
    (srtfRun procs st next).sched.length =
      st.sched.length +
        (if (match st.cur with
             | none => true
             | some c => pidAt procs c != pidAt procs next) = true then 1 else 0) := by
  obtain ⟨hmem, hmin, hfirst⟩ :=
    insertionSortHead_firstMin (remAt st.rem) (srtfReady procs st.rem st.t)
      (srtfReady_pairwise procs st.rem st.t) next s' hsort
  refine ⟨hmem, hmin, hfirst, ?_, srtfRun_sched_length procs st next⟩
  unfold srtfStep
  rw [hsort]

/-- C3 (witness): the amended selection rule at a concrete dispatch state. -/
theorem C3_srtf_select_witness :
    (List.insertionSort (fun a b => remAt [7, 4] a ≤ remAt [7, 4] b)
        (srtfReady [⟨"P1", 0, 7, 2⟩, ⟨"P2", 0, 4, 1⟩] [7, 4] 0) = [1, 0]) ∧
    (1 ∈ srtfReady [⟨"P1", 0, 7, 2⟩, ⟨"P2", 0, 4, 1⟩] [7, 4] 0 ∧
      (∀ k ∈ srtfReady [⟨"P1", 0, 7, 2⟩, ⟨"P2", 0, 4, 1⟩] [7, 4] 0,
        remAt [7, 4] 1 ≤ remAt [7, 4] k) ∧
      (∀ k ∈ srtfReady [⟨"P1", 0, 7, 2⟩, ⟨"P2", 0, 4, 1⟩] [7, 4] 0, k < 1 →
        remAt [7, 4] 1 < remAt [7, 4] k) ∧
      srtfStep [⟨"P1", 0, 7, 2⟩, ⟨"P2", 0, 4, 1⟩] ⟨[7, 4], 0, none, []⟩ =
        srtfRun [⟨"P1", 0, 7, 2⟩, ⟨"P2", 0, 4, 1⟩] ⟨[7, 4], 0, none, []⟩ 1 ∧
      (srtfRun [⟨"P1", 0, 7, 2⟩, ⟨"P2", 0, 4, 1⟩] ⟨[7, 4], 0, none, []⟩ 1).sched.length =
        (⟨[7, 4], 0, none, []⟩ : SrtfState).sched.length +
          (if (match (⟨[7, 4], 0, none, []⟩ : SrtfState).cur with
               | none => true
               | some c => pidAt [⟨"P1", 0, 7, 2⟩, ⟨"P2", 0, 4, 1⟩] c !=
                   pidAt [⟨"P1", 0, 7, 2⟩, ⟨"P2", 0, 4, 1⟩] 1) = true then 1 else 0)) :=
  ⟨rfl, C3_srtf_select [⟨"P1", 0, 7, 2⟩, ⟨"P2", 0, 4, 1⟩] ⟨[7, 4], 0, none, []⟩ 1 [0] rfl⟩

theorem rrGo_stuck_q0 :
    ∀ (fuel : Nat) (sched : List Seg),
      rrGo [⟨"P1", 0, 1, 0⟩] 0 fuel ⟨[1], [0], 1, 0, sched⟩ = none := by
  intro fuel
  induction fuel with
  | zero => intro sched; rfl
  | succ f ih =>
    intro sched
    have hstep : rrGo [⟨"P1", 0, 1, 0⟩] 0 (f + 1) ⟨[1], [0], 1, 0, sched⟩ =
        rrGo [⟨"P1", 0, 1, 0⟩] 0 f ⟨[1], [0], 1, 0, sched ++ [⟨"P1", 0, 0⟩]⟩ := rfl
    rw [hstep, ih]

/-- C7 (amended): the engine performs no input validation.  With quantum 0 and
a nonempty process list, `roundRobin` loops forever (the fuelled loop returns
`none` for every fuel, from the state reached after the first slice), and
`isSafe` on a dimension-mismatched or allocation-exceeding-max input computes
and returns an ordinary full result object instead of any validation error. -/
theorem C7_no_validation :
    (∀ (fuel : Nat) (sched : List Seg),
      rrGo [⟨"P1", 0, 1, 0⟩] 0 fuel ⟨[1], [0], 1, 0, sched⟩ = none) ∧
    roundRobin [⟨"P1", 0, 1, 0⟩] 0 = none ∧
    isSafe [1] [[1, 1]] [[0, 0]] = some ⟨true, [0], [[1]]⟩ ∧
    isSafe [0] [[0]] [[1]] = some ⟨true, [0], [[-1]]⟩ := by
  refine ⟨rrGo_stuck_q0, ?_, rfl, rfl⟩
  exact rrGo_stuck_q0 5 [⟨"P1", 0, 0⟩]

theorem addAlloc_length (allocM : MatI) (w : VecI) (i : Nat) :
    (addAlloc allocM w i).length = w.length := by
  simp [addAlloc]

theorem replayWork_length (allocM : MatI) (w : VecI) :
    ∀ (seq : List Nat), (replayWork allocM w seq).length = w.length := by
  intro seq
  induction seq generalizing w with
  | nil => rfl
  | cons i rest ih =>
    show (replayWork allocM (addAlloc allocM w i) rest).length = w.length
    rw [ih (addAlloc allocM w i), addAlloc_length]

theorem replayWork_append (allocM : MatI) (w : VecI) (s : List Nat) (i : Nat) :
    replayWork allocM w (s ++ [i]) = addAlloc allocM (replayWork allocM w s) i := by
  simp [replayWork, List.foldl_append]

theorem checkSeq_append (need allocM : MatI) :
    ∀ (s : List Nat) (w : VecI) (i : Nat),
      checkSeq need allocM w (s ++ [i]) =
        (checkSeq need allocM w s &&
          canFinish need (replayWork allocM w s) (replayWork allocM w s).length i) := by
  intro s
  induction s with
  | nil => intro w i; simp [checkSeq, replayWork]
  | cons j rest ih =>
    intro w i
    show (canFinish need w w.length j && checkSeq need allocM (addAlloc allocM w j) (rest ++ [i])) = _
    rw [ih (addAlloc allocM w j) i]
    show _ = ((canFinish need w w.length j && checkSeq need allocM (addAlloc allocM w j) rest) && _)
    rw [Bool.and_assoc]
    rfl

theorem countFalse_set_true :
    ∀ (l : List Bool) (i : Nat), i < l.length → l.getD i false = false →
      countFalse (l.set i true) + 1 = countFalse l := by
  intro l
  induction l with
  | nil => intro i hi; simp at hi
  | cons b rest ih =>
    intro i hi hfalse
    cases i with
    | zero =>
      simp [List.getD] at hfalse
      subst hfalse
      simp [countFalse, List.countP_cons]
    | succ i' =>
      have := ih i' (by simpa using hi) (by simpa [List.getD] using hfalse)
      simp only [List.set_cons_succ, countFalse, List.countP_cons] at this ⊢
      omega

theorem countFalse_le_length : ∀ (l : List Bool), countFalse l ≤ l.length :=
  fun l => List.countP_le_length _

theorem bankersFold_untouched (need allocM : MatI) (m : Nat) :
    ∀ (l : List Nat) (st : BState) (b : Bool),
      (∀ j, j ∉ l →
        (l.foldl (bankersF need allocM m) (st, b)).1.finish.getD j false =
          st.finish.getD j false) ∧
      (l.foldl (bankersF need allocM m) (st, b)).1.finish.length = st.finish.length := by
  intro l
  induction l with
  | nil => intro st b; exact ⟨fun j _ => rfl, rfl⟩
  | cons i rest ih =>
    intro st b
    rw [List.foldl_cons]
    cases hfin : st.finish.getD i false with
    | true =>
      have hF : bankersF need allocM m (st, b) i = (st, b) := by
        simp only [bankersF]
        rw [hfin]
        simp
      rw [hF]
      obtain ⟨h1, h2⟩ := ih st b
      exact ⟨fun j hj => h1 j (fun hm' => hj (List.mem_cons_of_mem i hm')), h2⟩
    | false =>
      cases hcan : canFinish need st.work m i with
      | false =>
        have hF : bankersF need allocM m (st, b) i = (st, b) := by
          simp only [bankersF]
          rw [hfin, hcan]
          simp
        rw [hF]
        obtain ⟨h1, h2⟩ := ih st b
        exact ⟨fun j hj => h1 j (fun hm' => hj (List.mem_cons_of_mem i hm')), h2⟩
      | true =>
        have hF : bankersF need allocM m (st, b) i =
            (⟨addAlloc allocM st.work i, st.finish.set i true, st.seq ++ [i]⟩, true) := by
          simp only [bankersF]
          rw [hfin, hcan]
          simp
        rw [hF]
        obtain ⟨h1, h2⟩ :=
          ih ⟨addAlloc allocM st.work i, st.finish.set i true, st.seq ++ [i]⟩ true
        constructor
        · intro j hj
          have hji : j ≠ i := fun h => hj (h ▸ List.mem_cons_self i rest)
          rw [h1 j (fun hm' => hj (List.mem_cons_of_mem i hm'))]
          show (st.finish.set i true).getD j false = st.finish.getD j false
          rw [List.getD_eq_getElem?_getD, List.getD_eq_getElem?_getD,
            List.getElem?_set_ne (fun h => hji h.symm)]
        · rw [h2]
          show (st.finish.set i true).length = st.finish.length
          exact List.length_set st.finish i true

theorem getD_set_self_bool (l : List Bool) (i : Nat) (h : i < l.length) :
    (l.set i true).getD i false = true := by
  rw [List.getD_eq_getElem?_getD, List.getElem?_set_self h]
  rfl

theorem bankersFold_specRound (need allocM : MatI) (m : Nat) :
    ∀ (l : List Nat) (st : BState) (b : Bool),
      l.Nodup → (∀ i ∈ l, i < st.finish.length) →
      ((l.foldl (bankersF need allocM m) (st, b)).1.work =
        (specRound need allocM m st.work (l.filter (fun i => st.finish.getD i false = false))).1) ∧
      (l.filter (fun i =>
          (l.foldl (bankersF need allocM m) (st, b)).1.finish.getD i false = false) =
        (specRound need allocM m st.work
          (l.filter (fun i => st.finish.getD i false = false))).2.1) ∧
      ((l.foldl (bankersF need allocM m) (st, b)).2 =
        (b || (specRound need allocM m st.work
          (l.filter (fun i => st.finish.getD i false = false))).2.2)) := by
  intro l
  induction l with
  | nil =>
    intro st b _ _
    exact ⟨rfl, rfl, by simp [specRound]⟩
  | cons i rest ih =>
    intro st b hnd hlen
    obtain ⟨hinotin, hndrest⟩ := List.nodup_cons.1 hnd
    have hlenrest : ∀ j ∈ rest, j < st.finish.length :=
      fun j hj => hlen j (List.mem_cons_of_mem i hj)
    rw [List.foldl_cons]
    cases hfin : st.finish.getD i false with
    | true =>
      have hF : bankersF need allocM m (st, b) i = (st, b) := by
        simp only [bankersF]; rw [hfin]; simp
      rw [hF]
      have hfilt : (i :: rest).filter (fun j => st.finish.getD j false = false) =
          rest.filter (fun j => st.finish.getD j false = false) := by
        rw [List.filter_cons]
        rw [hfin]
        simp
      obtain ⟨e1, e2, e3⟩ := ih st b hndrest hlenrest
      have huntouched := (bankersFold_untouched need allocM m rest st b).1 i hinotin
      refine ⟨by rw [hfilt]; exact e1, ?_, by rw [hfilt]; exact e3⟩
      rw [hfilt, List.filter_cons, huntouched, hfin]
      simpa using e2
    | false =>
      cases hcan : canFinish need st.work m i with
      | false =>
        have hF : bankersF need allocM m (st, b) i = (st, b) := by
          simp only [bankersF]; rw [hfin, hcan]; simp
        rw [hF]
        have hfilt : (i :: rest).filter (fun j => st.finish.getD j false = false) =
            i :: rest.filter (fun j => st.finish.getD j false = false) := by
          rw [List.filter_cons, hfin]
          simp
        have hspec : specRound need allocM m st.work
            (i :: rest.filter (fun j => st.finish.getD j false = false)) =
            ((specRound need allocM m st.work
                (rest.filter (fun j => st.finish.getD j false = false))).1,
              i :: (specRound need allocM m st.work
                (rest.filter (fun j => st.finish.getD j false = false))).2.1,
              (specRound need allocM m st.work
                (rest.filter (fun j => st.finish.getD j false = false))).2.2) := by
          simp only [specRound]
          rw [hcan]
          simp
        obtain ⟨e1, e2, e3⟩ := ih st b hndrest hlenrest
        have huntouched := (bankersFold_untouched need allocM m rest st b).1 i hinotin
        rw [hfilt, hspec]
        refine ⟨e1, ?_, e3⟩
        rw [List.filter_cons, huntouched, hfin]
        simpa using e2
      | true =>
        have hF : bankersF need allocM m (st, b) i =
            (⟨addAlloc allocM st.work i, st.finish.set i true, st.seq ++ [i]⟩, true) := by
          simp only [bankersF]; rw [hfin, hcan]; simp
        rw [hF]
        have hfilt : (i :: rest).filter (fun j => st.finish.getD j false = false) =
            i :: rest.filter (fun j => st.finish.getD j false = false) := by
          rw [List.filter_cons, hfin]
          simp
        have hspec : specRound need allocM m st.work
            (i :: rest.filter (fun j => st.finish.getD j false = false)) =
            ((specRound need allocM m (addAlloc allocM st.work i)
                (rest.filter (fun j => st.finish.getD j false = false))).1,
              (specRound need allocM m (addAlloc allocM st.work i)
                (rest.filter (fun j => st.finish.getD j false = false))).2.1,
              true) := by
          simp only [specRound]
          rw [hcan]
          simp
        have hst₁len : ∀ j ∈ rest, j <
            (⟨addAlloc allocM st.work i, st.finish.set i true, st.seq ++ [i]⟩ : BState).finish.length := by
          intro j hj
          show j < (st.finish.set i true).length
          rw [List.length_set]
          exact hlenrest j hj
        have hfcong : rest.filter (fun j => st.finish.getD j false = false) =
            rest.filter (fun j =>
              (⟨addAlloc allocM st.work i, st.finish.set i true, st.seq ++ [i]⟩ : BState).finish.getD
                j false = false) := by
          apply List.filter_congr
          intro j hj
          have hji : j ≠ i := fun h => hinotin (h ▸ hj)
          show (decide (st.finish.getD j false = false)) =
            (decide ((st.finish.set i true).getD j false = false))
          rw [List.getD_eq_getElem?_getD, List.getD_eq_getElem?_getD,
            List.getElem?_set_ne (fun h => hji h.symm)]
        obtain ⟨e1, e2, e3⟩ :=
          ih ⟨addAlloc allocM st.work i, st.finish.set i true, st.seq ++ [i]⟩ true hndrest hst₁len
        have huntouched := (bankersFold_untouched need allocM m rest
          ⟨addAlloc allocM st.work i, st.finish.set i true, st.seq ++ [i]⟩ true).1 i hinotin
        rw [hfilt, hspec]
        refine ⟨?_, ?_, ?_⟩
        · rw [hfcong]
          exact e1
        · rw [List.filter_cons, huntouched]
          have hset : ((⟨addAlloc allocM st.work i, st.finish.set i true, st.seq ++ [i]⟩ :
              BState).finish.getD i false) = true :=
            getD_set_self_bool st.finish i (hlen i (List.mem_cons_self i rest))
          rw [hset]
          simp only [decide_eq_true_eq]
          rw [if_neg (by simp)]
          rw [hfcong]
          exact e2
        · rw [e3]
          simp

theorem bankersFold_good (need allocM : MatI) (available : VecI) (m n : Nat)
    (hm : available.length = m) :
    ∀ (l : List Nat) (st : BState) (b : Bool),
      (∀ i ∈ l, i < n) → BGood need allocM available n st →
      BGood need allocM available n (l.foldl (bankersF need allocM m) (st, b)).1 ∧
      countFalse (l.foldl (bankersF need allocM m) (st, b)).1.finish ≤ countFalse st.finish ∧
      ((l.foldl (bankersF need allocM m) (st, b)).2 = true →
        b = true ∨
          countFalse (l.foldl (bankersF need allocM m) (st, b)).1.finish < countFalse st.finish) ∧
      ((l.foldl (bankersF need allocM m) (st, b)).2 = false →
        b = false ∧ (l.foldl (bankersF need allocM m) (st, b)).1 = st) := by
  intro l
  induction l with
  | nil =>
    intro st b _ hG
    exact ⟨hG, Nat.le_refl _, fun h => Or.inl h, fun h => ⟨h, rfl⟩⟩
  | cons i rest ih =>
    intro st b hlt hG
    obtain ⟨hGw, hGc, hGnd, hG4, hG5, hGlen⟩ := hG
    have hlti : i < n := hlt i (List.mem_cons_self i rest)
    have hltrest : ∀ j ∈ rest, j < n := fun j hj => hlt j (List.mem_cons_of_mem i hj)
    rw [List.foldl_cons]
    cases hfin : st.finish.getD i false with
    | true =>
      have hF : bankersF need allocM m (st, b) i = (st, b) := by
        simp only [bankersF]; rw [hfin]; simp
      rw [hF]
      exact ih st b hltrest ⟨hGw, hGc, hGnd, hG4, hG5, hGlen⟩
    | false =>
      cases hcan : canFinish need st.work m i with
      | false =>
        have hF : bankersF need allocM m (st, b) i = (st, b) := by
          simp only [bankersF]; rw [hfin, hcan]; simp
        rw [hF]
        exact ih st b hltrest ⟨hGw, hGc, hGnd, hG4, hG5, hGlen⟩
      | true =>
        have hF : bankersF need allocM m (st, b) i =
            (⟨addAlloc allocM st.work i, st.finish.set i true, st.seq ++ [i]⟩, true) := by
          simp only [bankersF]; rw [hfin, hcan]; simp
        rw [hF]
        have hinotseq : i ∉ st.seq := by
          intro hin
          have := (hG4 i hin).2
          rw [this] at hfin
          cases hfin
        have hG1' : BGood need allocM available n
            ⟨addAlloc allocM st.work i, st.finish.set i true, st.seq ++ [i]⟩ := by
          refine ⟨?_, ?_, ?_, ?_, ?_, ?_⟩
          · show addAlloc allocM st.work i = replayWork allocM available (st.seq ++ [i])
            rw [replayWork_append, ← hGw]
          · show checkSeq need allocM available (st.seq ++ [i]) = true
            rw [checkSeq_append]
            have hrl : (replayWork allocM available st.seq).length = m := by
              rw [replayWork_length, hm]
            rw [hrl, ← hGw, hGc, hcan]
            rfl
          · exact List.Nodup.append hGnd (List.nodup_singleton i)
              (by simpa using hinotseq)
          · intro x hx
            rcases List.mem_append.1 hx with hx' | hx'
            · obtain ⟨hxn, hxf⟩ := hG4 x hx'
              refine ⟨hxn, ?_⟩
              show (st.finish.set i true).getD x false = true
              by_cases hxi : x = i
              · subst hxi
                exact getD_set_self_bool st.finish x (hGlen ▸ hxn)
              · rw [List.getD_eq_getElem?_getD,
                  List.getElem?_set_ne (fun h => hxi h.symm)]
                rw [List.getD_eq_getElem?_getD] at hxf
                exact hxf
            · have hxi : x = i := by simpa using hx'
              subst hxi
              exact ⟨hlti, getD_set_self_bool st.finish x (hGlen ▸ hlti)⟩
          · intro k hk hkf
            by_cases hki : k = i
            · subst hki
              exact List.mem_append.2 (Or.inr (List.mem_singleton_self k))
            · have : (st.finish.set i true).getD k false = st.finish.getD k false := by
                rw [List.getD_eq_getElem?_getD, List.getD_eq_getElem?_getD,
                  List.getElem?_set_ne (fun h => hki h.symm)]
              rw [show ((⟨addAlloc allocM st.work i, st.finish.set i true, st.seq ++ [i]⟩ :
                BState).finish.getD k false) = (st.finish.set i true).getD k false from rfl,
                this] at hkf
              exact List.mem_append.2 (Or.inl (hG5 k hk hkf))
          · show (st.finish.set i true).length = n
            rw [List.length_set]
            exact hGlen
        have hcf : countFalse (st.finish.set i true) + 1 = countFalse st.finish :=
          countFalse_set_true st.finish i (hGlen ▸ hlti) hfin
        obtain ⟨ih1, ih2, ih3, ih4⟩ :=
          ih ⟨addAlloc allocM st.work i, st.finish.set i true, st.seq ++ [i]⟩ true hltrest hG1'
        have hproj : countFalse ((⟨addAlloc allocM st.work i, st.finish.set i true,
            st.seq ++ [i]⟩ : BState).finish) = countFalse (st.finish.set i true) := rfl
        rw [hproj] at ih2
        refine ⟨ih1, by omega, fun _ => Or.inr (by omega), fun hfl => ?_⟩
        obtain ⟨hcontra, -⟩ := ih4 hfl
        cases hcontra

theorem bankersLoop_spec (need allocM : MatI) (available : VecI) (m n : Nat)
    (hm : available.length = m) :
    ∀ (fuel : Nat) (st : BState),
      BGood need allocM available n st → countFalse st.finish < fuel →
      ∃ st', bankersLoop need allocM m n fuel st = some st' ∧
        BGood need allocM available n st' ∧
        specScan need allocM m fuel st.work (pendingOf n st.finish) =
          (pendingOf n st'.finish).isEmpty := by
  intro fuel
  induction fuel with
  | zero => intro st _ h; omega
  | succ f ih =>
    intro st hG hcf
    have hlen : ∀ i ∈ List.range n, i < st.finish.length := by
      intro i hi
      rw [hG.2.2.2.2.2]
      exact List.mem_range.1 hi
    obtain ⟨e1, e2, e3⟩ := bankersFold_specRound need allocM m (List.range n) st false
      (List.nodup_range n) hlen
    obtain ⟨g1, g2, g3, g4⟩ := bankersFold_good need allocM available m n hm (List.range n) st
      false (fun i hi => List.mem_range.1 hi) hG
    have hround : bankersRound need allocM m n st =
        (((List.range n).foldl (bankersF need allocM m) (st, false)).1,
          ((List.range n).foldl (bankersF need allocM m) (st, false)).2) := rfl
    have hsr : specRound need allocM m st.work (pendingOf n st.finish) =
        ((specRound need allocM m st.work (pendingOf n st.finish)).1,
          (specRound need allocM m st.work (pendingOf n st.finish)).2.1,
          (specRound need allocM m st.work (pendingOf n st.finish)).2.2) := rfl
    have hpend : pendingOf n st.finish =
        (List.range n).filter (fun i => st.finish.getD i false = false) := rfl
    cases hflag : ((List.range n).foldl (bankersF need allocM m) (st, false)).2 with
    | true =>
      have hdec : countFalse ((List.range n).foldl (bankersF need allocM m) (st, false)).1.finish <
          countFalse st.finish := by
        rcases g3 hflag with h | h
        · cases h
        · exact h
      obtain ⟨st', hsome, hG', hspec⟩ :=
        ih ((List.range n).foldl (bankersF need allocM m) (st, false)).1 g1 (by omega)
      refine ⟨st', ?_, hG', ?_⟩
      · have hloop : bankersLoop need allocM m n (f + 1) st =
            bankersLoop need allocM m n f
              ((List.range n).foldl (bankersF need allocM m) (st, false)).1 := by
          simp only [bankersLoop]
          rw [hround, hflag]
        rw [hloop]
        exact hsome
      · have hsflag : (specRound need allocM m st.work (pendingOf n st.finish)).2.2 = true := by
          have h := e3
          rw [Bool.false_or] at h
          rw [hpend, ← h]
          exact hflag
        have hstep : specScan need allocM m (f + 1) st.work (pendingOf n st.finish) =
            specScan need allocM m f
              (specRound need allocM m st.work (pendingOf n st.finish)).1
              (specRound need allocM m st.work (pendingOf n st.finish)).2.1 := by
          simp only [specScan]
          rw [hsr, hsflag]
        rw [hstep]
        have hw : (specRound need allocM m st.work (pendingOf n st.finish)).1 =
            ((List.range n).foldl (bankersF need allocM m) (st, false)).1.work := by
          rw [hpend]; exact e1.symm
        have hp : (specRound need allocM m st.work (pendingOf n st.finish)).2.1 =
            pendingOf n ((List.range n).foldl (bankersF need allocM m) (st, false)).1.finish := by
          rw [hpend]; exact e2.symm
        rw [hw, hp]
        exact hspec
    | false =>
      obtain ⟨-, hst⟩ := g4 hflag
      have hloop : bankersLoop need allocM m n (f + 1) st =
          some ((List.range n).foldl (bankersF need allocM m) (st, false)).1 := by
        simp only [bankersLoop]
        rw [hround, hflag]
      have hsflag : (specRound need allocM m st.work (pendingOf n st.finish)).2.2 = false := by
        have := e3
        rw [Bool.false_or] at this
        rw [hpend, ← this]
        exact hflag
      have hstep : specScan need allocM m (f + 1) st.work (pendingOf n st.finish) =
          ((specRound need allocM m st.work (pendingOf n st.finish)).2.1).isEmpty := by
        simp only [specScan]
        rw [hsr, hsflag]
      refine ⟨((List.range n).foldl (bankersF need allocM m) (st, false)).1, hloop, g1, ?_⟩
      rw [hstep]
      have hp : (specRound need allocM m st.work (pendingOf n st.finish)).2.1 =
          pendingOf n ((List.range n).foldl (bankersF need allocM m) (st, false)).1.finish := by
        rw [hpend]; exact e2.symm
      rw [hp]

theorem getD_replicate_false (n k : Nat) : (List.replicate n false).getD k false = false := by
  rw [List.getD_eq_getElem?_getD, List.getElem?_replicate]
  split <;> rfl

theorem countFalse_replicate (n : Nat) : countFalse (List.replicate n false) = n := by
  induction n with
  | zero => rfl
  | succ k ih =>
    have hcons : countFalse (false :: List.replicate k false) =
        countFalse (List.replicate k false) + 1 := by
      unfold countFalse
      rw [List.countP_cons]
      simp
    rw [List.replicate_succ, hcons, ih]

theorem pendingOf_replicate (n : Nat) : pendingOf n (List.replicate n false) = List.range n := by
  unfold pendingOf
  apply List.filter_eq_self.2
  intro i _
  simp [getD_replicate_false]

theorem all_id_iff_pending (finish : List Bool) (n : Nat) (hlen : finish.length = n) :
    (finish.all id = true) ↔ ((pendingOf n finish).isEmpty = true) := by
  rw [List.all_eq_true, List.isEmpty_iff]
  unfold pendingOf
  rw [List.filter_eq_nil_iff]
  constructor
  · intro h i hi
    have hilt : i < finish.length := hlen ▸ List.mem_range.1 hi
    have hgd : finish.getD i false = finish.get ⟨i, hilt⟩ := by
      rw [List.getD_eq_getElem?_getD, List.getElem?_eq_getElem hilt]
      rfl
    have htrue := h (finish.get ⟨i, hilt⟩) (List.get_mem finish i hilt)
    simp only [id_eq] at htrue
    simp only [decide_eq_true_eq]
    rw [hgd, htrue]
    simp
  · intro h b hb
    obtain ⟨i, hilt, hieq⟩ := List.mem_iff_getElem.1 hb
    have hmem := h i (List.mem_range.2 (hlen ▸ hilt))
    simp only [decide_eq_true_eq] at hmem
    have hgd : finish.getD i false = finish.get ⟨i, hilt⟩ := by
      rw [List.getD_eq_getElem?_getD, List.getElem?_eq_getElem hilt]
      rfl
    rw [hgd] at hmem
    rw [← hieq]
    simp only [id_eq]
    cases hfi : finish.get ⟨i, hilt⟩ with
    | false => exact absurd hfi hmem
    | true =>
      rw [List.get_eq_getElem] at hfi
      exact hfi

/-- C2: for dimension-consistent inputs with `allocation ≤ max`, `isSafe`
terminates and reports `safe = true` exactly when the spec's fixed-point scan
finishes every process; when safe, the returned sequence is a permutation of
all process indices (its recording order is the finish order) and replaying it
from `available` satisfies `need[i] ≤ work` at every step; when unsafe, the
returned sequence is empty. -/
theorem C2_bankers (available : VecI) (maxM allocM : MatI)
    (hn : allocM.length = maxM.length)
    (hrowM : ∀ row ∈ maxM, row.length = available.length)
    (hrowA : ∀ row ∈ allocM, row.length = available.length)
    (hle : ∀ i j, i < maxM.length → j < available.length →
      idx2 allocM i j ≤ idx2 maxM i j) :
    ∃ r, isSafe available maxM allocM = some r ∧
      (r.safe = true ↔ specScanAll available maxM allocM = true) ∧
      (r.safe = true → r.sequence.Perm (List.range maxM.length) ∧
        checkSeq r.need allocM available r.sequence = true) ∧
      (r.safe = false → r.sequence = []) := by
  have hG0 : BGood (needMatrix maxM allocM maxM.length available.length) allocM available
      maxM.length ⟨available, List.replicate maxM.length false, []⟩ := by
    refine ⟨rfl, rfl, List.nodup_nil, by simp, ?_, by simp⟩
    intro k hk hkf
    rw [show ((⟨available, List.replicate maxM.length false, []⟩ : BState).finish.getD k false) =
      (List.replicate maxM.length false).getD k false from rfl, getD_replicate_false] at hkf
    cases hkf
  obtain ⟨st', hsome, hG', hspec⟩ :=
    bankersLoop_spec (needMatrix maxM allocM maxM.length available.length) allocM available
      available.length maxM.length rfl (maxM.length + 1)
      ⟨available, List.replicate maxM.length false, []⟩ hG0
      (by rw [show ((⟨available, List.replicate maxM.length false, []⟩ : BState).finish) =
        List.replicate maxM.length false from rfl, countFalse_replicate]; omega)
  obtain ⟨hGw', hGc', hGnd', hG4', hG5', hGlen'⟩ := hG'
  refine ⟨⟨st'.finish.all id, if st'.finish.all id then st'.seq else [],
    needMatrix maxM allocM maxM.length available.length⟩, ?_, ?_, ?_, ?_⟩
  · show (bankersLoop (needMatrix maxM allocM maxM.length available.length) allocM
      available.length maxM.length (maxM.length + 1)
      ⟨available, List.replicate maxM.length false, []⟩).map _ = _
    rw [hsome]
    rfl
  · show st'.finish.all id = true ↔ specScanAll available maxM allocM = true
    have hscan : specScanAll available maxM allocM =
        specScan (needMatrix maxM allocM maxM.length available.length) allocM
          available.length (maxM.length + 1) available (List.range maxM.length) := rfl
    have hspec' : specScan (needMatrix maxM allocM maxM.length available.length) allocM
        available.length (maxM.length + 1) available
        (pendingOf maxM.length (List.replicate maxM.length false)) =
        (pendingOf maxM.length st'.finish).isEmpty := hspec
    rw [hscan, ← pendingOf_replicate maxM.length, hspec']
    exact all_id_iff_pending st'.finish maxM.length hGlen'
  · intro hsafe
    have hsafe' : st'.finish.all id = true := hsafe
    show ((if st'.finish.all id = true then st'.seq else []).Perm (List.range maxM.length)) ∧
      checkSeq (needMatrix maxM allocM maxM.length available.length) allocM available
        (if st'.finish.all id = true then st'.seq else []) = true
    rw [if_pos hsafe']
    constructor
    · have hsub1 : st'.seq ⊆ List.range maxM.length := by
        intro x hx
        exact List.mem_range.2 (hG4' x hx).1
      have hsub2 : List.range maxM.length ⊆ st'.seq := by
        intro k hk
        have hklt := List.mem_range.1 hk
        apply hG5' k hklt
        have hkl : k < st'.finish.length := hGlen' ▸ hklt
        have := (List.all_eq_true.1 hsafe) (st'.finish[k]) (List.getElem_mem hkl)
        simp only [id_eq] at this
        rw [List.getD_eq_getElem?_getD, List.getElem?_eq_getElem hkl]
        exact this
      exact ((hGnd'.subperm hsub1).antisymm ((List.nodup_range maxM.length).subperm hsub2))
    · exact hGc'
  · intro hunsafe
    have hunsafe' : st'.finish.all id = false := hunsafe
    show (if st'.finish.all id = true then st'.seq else []) = []
    rw [if_neg (by simp [hunsafe'])]

/-- C2 (witness): the classic 5-process / 3-resource safe state. -/
theorem C2_bankers_witness :
    ((([[0, 1, 0], [2, 0, 0], [3, 0, 2], [2, 1, 1], [0, 0, 2]] : MatI).length =
        ([[7, 5, 3], [3, 2, 2], [9, 0, 2], [2, 2, 2], [4, 3, 3]] : MatI).length) ∧
      (∀ row ∈ ([[7, 5, 3], [3, 2, 2], [9, 0, 2], [2, 2, 2], [4, 3, 3]] : MatI),
        row.length = ([3, 3, 2] : VecI).length) ∧
      (∀ row ∈ ([[0, 1, 0], [2, 0, 0], [3, 0, 2], [2, 1, 1], [0, 0, 2]] : MatI),
        row.length = ([3, 3, 2] : VecI).length) ∧
      (∀ i j, i < ([[7, 5, 3], [3, 2, 2], [9, 0, 2], [2, 2, 2], [4, 3, 3]] : MatI).length →
        j < ([3, 3, 2] : VecI).length →
        idx2 [[0, 1, 0], [2, 0, 0], [3, 0, 2], [2, 1, 1], [0, 0, 2]] i j ≤
          idx2 [[7, 5, 3], [3, 2, 2], [9, 0, 2], [2, 2, 2], [4, 3, 3]] i j)) ∧
    (∃ r, isSafe [3, 3, 2] [[7, 5, 3], [3, 2, 2], [9, 0, 2], [2, 2, 2], [4, 3, 3]]
        [[0, 1, 0], [2, 0, 0], [3, 0, 2], [2, 1, 1], [0, 0, 2]] = some r ∧
      (r.safe = true ↔ specScanAll [3, 3, 2] [[7, 5, 3], [3, 2, 2], [9, 0, 2], [2, 2, 2], [4, 3, 3]]
        [[0, 1, 0], [2, 0, 0], [3, 0, 2], [2, 1, 1], [0, 0, 2]] = true) ∧
      (r.safe = true → r.sequence.Perm (List.range
          ([[7, 5, 3], [3, 2, 2], [9, 0, 2], [2, 2, 2], [4, 3, 3]] : MatI).length) ∧
        checkSeq r.need [[0, 1, 0], [2, 0, 0], [3, 0, 2], [2, 1, 1], [0, 0, 2]] [3, 3, 2]
          r.sequence = true) ∧
      (r.safe = false → r.sequence = [])) :=
  ⟨⟨by decide, by decide, by decide,
      by
        intro i j hi hj
        have hi' : i < 5 := by simpa using hi
        have hj' : j < 3 := by simpa using hj
        interval_cases i <;> interval_cases j <;> decide⟩,
    C2_bankers [3, 3, 2] [[7, 5, 3], [3, 2, 2], [9, 0, 2], [2, 2, 2], [4, 3, 3]]
      [[0, 1, 0], [2, 0, 0], [3, 0, 2], [2, 1, 1], [0, 0, 2]] (by decide) (by decide) (by decide)
      (by
        intro i j hi hj
        have hi' : i < 5 := by simpa using hi
        have hj' : j < 3 := by simpa using hj
        interval_cases i <;> interval_cases j <;> decide)⟩

theorem sumDur_append_one (pid : String) (s1 : List Seg) (seg : Seg) :
    sumDur pid (s1 ++ [seg]) =
      sumDur pid s1 + (if seg.pid = pid then seg.«end» - seg.start else 0) := by
  unfold sumDur
  rw [List.filter_append, List.map_append, List.sum_append]
  congr 1
  by_cases h : seg.pid = pid
  · simp [List.filter_cons, h]
  · simp [List.filter_cons, h]

theorem pidAt_eq {procs : List Proc} {k : Nat} (h : k < procs.length) :
    pidAt procs k = (procs[k]).pid := by
  unfold pidAt
  rw [List.getD_eq_getElem?_getD, List.getElem?_eq_getElem h]
  rfl

theorem arrAt_eq {procs : List Proc} {k : Nat} (h : k < procs.length) :
    arrAt procs k = (procs[k]).arrival := by
  unfold arrAt
  rw [List.getD_eq_getElem?_getD, List.getElem?_eq_getElem h]
  rfl

theorem burAt_eq {procs : List Proc} {k : Nat} (h : k < procs.length) :
    burAt procs k = (procs[k]).burst := by
  unfold burAt
  rw [List.getD_eq_getElem?_getD, List.getElem?_eq_getElem h]
  rfl

theorem pids_nodup_eq {procs : List Proc} (hnd : (procs.map (·.pid)).Nodup)
    {j k : Nat} (hj : j < procs.length) (hk : k < procs.length)
    (hpid : pidAt procs j = pidAt procs k) : j = k := by
  have hinj := List.nodup_iff_injective_get.1 hnd
  have hjl : j < (procs.map (·.pid)).length := by simpa using hj
  have hkl : k < (procs.map (·.pid)).length := by simpa using hk
  have : (procs.map (·.pid)).get ⟨j, hjl⟩ = (procs.map (·.pid)).get ⟨k, hkl⟩ := by
    simp only [List.get_eq_getElem, List.getElem_map]
    rw [← pidAt_eq hj, ← pidAt_eq hk]
    exact hpid
  have := hinj this
  simpa using congrArg Fin.val this

theorem filter_pid_unique :
    ∀ {procs : List Proc}, (procs.map (·.pid)).Nodup → ∀ {p : Proc}, p ∈ procs →
      procs.filter (fun x => x.pid == p.pid) = [p] := by
  intro procs
  induction procs with
  | nil => intro _ p hp; cases hp
  | cons q rest ih =>
    intro hnd p hp
    rw [List.map_cons] at hnd
    obtain ⟨hqnot, hndrest⟩ := List.nodup_cons.1 hnd
    rcases List.mem_cons.1 hp with rfl | hprest
    · rw [List.filter_cons]
      simp only [beq_self_eq_true, if_pos rfl]
      have : rest.filter (fun x => x.pid == p.pid) = [] := by
        apply List.filter_eq_nil_iff.2
        intro x hx hbeq
        apply hqnot
        have : x.pid = p.pid := by simpa using hbeq
        rw [← this]
        exact List.mem_map.2 ⟨x, hx, rfl⟩
      rw [this]
      simp
    · rw [List.filter_cons]
      have hne : (q.pid == p.pid) = false := by
        have : q.pid ≠ p.pid := by
          intro he
          apply hqnot
          rw [he]
          exact List.mem_map.2 ⟨p, hprest, rfl⟩
        simpa using this
      rw [hne]
      simp only [Bool.false_eq_true, if_false]
      exact ih hndrest hprest

theorem sumDur_filter_form (pid : String) (segs : List Seg) :
    sumDur pid segs = ((segs.filter (fun s => s.pid == pid)).map (fun s => s.«end» - s.start)).sum :=
  rfl

theorem fcfs_fold (procs : List Proc) :
    ∀ (t : Nat) (sched : List Seg) (pid : String),
      sumDur pid
        ((procs.foldl
          (fun (st : Nat × List Seg) p =>
            let u := max st.1 p.arrival
            (u + p.burst, st.2 ++ [⟨p.pid, u, u + p.burst⟩]))
          (t, sched)).2) =
      sumDur pid sched + ((procs.filter (fun x => x.pid == pid)).map (·.burst)).sum := by
  induction procs with
  | nil => intro t sched pid; simp
  | cons p rest ih =>
    intro t sched pid
    rw [List.foldl_cons]
    have hstep := ih (max t p.arrival + p.burst)
      (sched ++ [⟨p.pid, max t p.arrival, max t p.arrival + p.burst⟩]) pid
    rw [hstep, sumDur_append_one, List.filter_cons]
    by_cases h : p.pid = pid
    · have hb : (p.pid == pid) = true := by simpa using h
      rw [hb]
      simp only [if_pos h, eq_self_iff_true, if_true, List.map_cons, List.sum_cons]
      omega
    · have hb : (p.pid == pid) = false := by simpa using h
      rw [hb]
      simp only [if_neg h, Bool.false_eq_true, if_false]
      omega

/-- Conservation for `fcfs`. -/
theorem fcfs_conservation (ps : List Proc) (hnd : (ps.map (·.pid)).Nodup) :
    ∀ p ∈ ps, sumDur p.pid (fcfs ps) = p.burst := by
  intro p hp
  have hperm : List.Perm (List.insertionSort (fun a b => a.arrival ≤ b.arrival) ps) ps :=
    List.perm_insertionSort _ ps
  have hndsort : ((List.insertionSort (fun a b => a.arrival ≤ b.arrival) ps).map (·.pid)).Nodup :=
    (hperm.map (·.pid)).symm.nodup (by exact hnd)
  have hpsort : p ∈ List.insertionSort (fun a b => a.arrival ≤ b.arrival) ps :=
    hperm.symm.subset hp
  show sumDur p.pid
      (((List.insertionSort (fun a b => a.arrival ≤ b.arrival) ps).foldl _ (0, [])).2) = p.burst
  rw [fcfs_fold]
  rw [filter_pid_unique hndsort hpsort]
  simp [sumDur]

theorem foldl_max_ge_init : ∀ (l : List Nat) (a : Nat), a ≤ l.foldl max a := by
  intro l
  induction l with
  | nil => intro a; exact Nat.le_refl a
  | cons y rest ih =>
    intro a
    exact Nat.le_trans (Nat.le_max_left a y) (ih (max a y))

theorem foldl_max_ge_mem : ∀ (l : List Nat) (a x : Nat), x ∈ l → x ≤ l.foldl max a := by
  intro l
  induction l with
  | nil => intro a x hx; cases hx
  | cons y rest ih =>
    intro a x hx
    rcases List.mem_cons.1 hx with rfl | hx'
    · exact Nat.le_trans (Nat.le_max_right a x) (foldl_max_ge_init rest (max a x))
    · exact ih (max a y) x hx'

theorem maxArrival_ge {ps : List Proc} {p : Proc} (hp : p ∈ ps) :
    p.arrival ≤ maxArrival ps :=
  foldl_max_ge_mem _ 0 p.arrival (List.mem_map.2 ⟨p, hp, rfl⟩)

theorem contains_iff_mem (l : List String) (x : String) : l.contains x = true ↔ x ∈ l := by
  simp

theorem setAdd_not_mem {l : List String} {x : String} (h : l.contains x = false) :
    setAdd l x = l ++ [x] := by
  unfold setAdd
  rw [h]
  simp

theorem all_pids_seen {procs : List Proc} (hnd : (procs.map (·.pid)).Nodup)
    {seen : List String} (hseenNd : seen.Nodup)
    (hsub : ∀ s ∈ seen, s ∈ procs.map (·.pid))
    (hlen : procs.length ≤ seen.length) :
    ∀ p ∈ procs, seen.contains p.pid = true := by
  intro p hp
  have hsp : seen.Subperm (procs.map (·.pid)) := hseenNd.subperm hsub
  have hperm : seen.Perm (procs.map (·.pid)) :=
    hsp.perm_of_length_le (by simpa using hlen)
  rw [contains_iff_mem]
  exact hperm.symm.subset (List.mem_map.2 ⟨p, hp, rfl⟩)

theorem exists_unseen {procs : List Proc} (hnd : (procs.map (·.pid)).Nodup)
    {seen : List String} (hsub : ∀ s ∈ seen, s ∈ procs.map (·.pid))
    (hlen : seen.length < procs.length) :
    ∃ k, k < procs.length ∧ seen.contains (pidAt procs k) = false := by
  by_contra hcon
  push_neg at hcon
  have hall : ∀ x ∈ procs.map (·.pid), x ∈ seen := by
    intro x hx
    obtain ⟨p, hp, rfl⟩ := List.mem_map.1 hx
    obtain ⟨k, hk, hpk⟩ := List.mem_iff_getElem.1 hp
    have := hcon k hk
    have hpid : pidAt procs k = p.pid := by rw [pidAt_eq hk, hpk]
    rw [hpid] at this
    rcases hb : seen.contains p.pid with _ | _
    · exact absurd hb this
    · exact (contains_iff_mem _ _).1 hb
  have hsp : (procs.map (·.pid)).Subperm seen := hnd.subperm hall
  have := hsp.length_le
  simp at this
  omega

theorem contains_append_ne {l : List String} {x y : String} (h : y ≠ x) :
    (l ++ [x]).contains y = l.contains y := by
  rcases hb : l.contains y with _ | _
  · have : y ∉ l := fun hm => by
      rw [(contains_iff_mem l y).2 hm] at hb
      cases hb
    have : y ∉ l ++ [x] := by
      intro hm
      rcases List.mem_append.1 hm with hm' | hm'
      · exact this hm'
      · exact h (List.mem_singleton.1 hm')
    rcases hb2 : (l ++ [x]).contains y with _ | _
    · rfl
    · exact absurd ((contains_iff_mem _ _).1 hb2) this
  · have : y ∈ l ++ [x] := List.mem_append.2 (Or.inl ((contains_iff_mem l y).1 hb))
    rw [(contains_iff_mem _ _).2 this]

theorem prioGo_spec (procs : List Proc) (hnd : (procs.map (·.pid)).Nodup) :
    ∀ (fuel t : Nat) (done : List String) (sched : List Seg),
      done.Nodup →
      (∀ s ∈ done, s ∈ procs.map (·.pid)) →
      (∀ p ∈ procs, sumDur p.pid sched = if done.contains p.pid then p.burst else 0) →
      (procs.length - done.length) * (maxArrival procs + 1) + (maxArrival procs - t) < fuel →
      ∃ s, prioGo procs fuel t done sched = some s ∧
        ∀ p ∈ procs, sumDur p.pid s = p.burst := by
  intro fuel
  induction fuel with
  | zero => intro t done sched _ _ _ h; omega
  | succ f ih =>
    intro t done sched hdnd hdsub hcons hM
    by_cases hterm : done.length < procs.length
    · cases hs : List.insertionSort (fun a b => priAt procs a ≤ priAt procs b)
          ((List.range procs.length).filter
            (fun k => decide (arrAt procs k ≤ t) && !(done.contains (pidAt procs k)))) with
      | nil =>
        have hready : ((List.range procs.length).filter
            (fun k => decide (arrAt procs k ≤ t) && !(done.contains (pidAt procs k)))) = [] := by
          have hperm := List.perm_insertionSort (fun a b => priAt procs a ≤ priAt procs b)
            ((List.range procs.length).filter
              (fun k => decide (arrAt procs k ≤ t) && !(done.contains (pidAt procs k))))
          rw [hs] at hperm
          exact hperm.symm.eq_nil
        have hloop : prioGo procs (f + 1) t done sched = prioGo procs f (t + 1) done sched := by
          simp only [prioGo]
          rw [if_pos hterm, hready]
          rfl
        obtain ⟨k, hk, hkun⟩ := exists_unseen hnd hdsub hterm
        have harr : t < arrAt procs k := by
          by_contra hle'
          push_neg at hle'
          have hkmem : k ∈ (List.range procs.length).filter
              (fun k => decide (arrAt procs k ≤ t) && !(done.contains (pidAt procs k))) := by
            apply List.mem_filter.2
            refine ⟨List.mem_range.2 hk, ?_⟩
            rw [hkun]
            simp [hle']
          rw [hready] at hkmem
          cases hkmem
        have hA : arrAt procs k ≤ maxArrival procs := by
          rw [arrAt_eq hk]
          exact maxArrival_ge (procs.getElem_mem hk)
        obtain ⟨s, hsome, hfin⟩ := ih (t + 1) done sched hdnd hdsub hcons (by omega)
        exact ⟨s, by rw [hloop]; exact hsome, hfin⟩
      | cons k rest =>
        have hkready : k ∈ (List.range procs.length).filter
            (fun k => decide (arrAt procs k ≤ t) && !(done.contains (pidAt procs k))) := by
          have hperm := List.perm_insertionSort (fun a b => priAt procs a ≤ priAt procs b)
            ((List.range procs.length).filter
              (fun k => decide (arrAt procs k ≤ t) && !(done.contains (pidAt procs k))))
          exact hperm.subset (hs ▸ List.mem_cons_self k rest)
        obtain ⟨hkr, hkc⟩ := List.mem_filter.1 hkready
        have hk : k < procs.length := List.mem_range.1 hkr
        rw [Bool.and_eq_true] at hkc
        obtain ⟨hkc1, hkc2⟩ := hkc
        have hkarr : arrAt procs k ≤ t := of_decide_eq_true hkc1
        have hkun : done.contains (pidAt procs k) = false := by
          rcases hb : done.contains (pidAt procs k) with _ | _
          · rfl
          · rw [hb] at hkc2
            cases hkc2
        have hloop : prioGo procs (f + 1) t done sched =
            prioGo procs f (t + burAt procs k) (setAdd done (pidAt procs k))
              (sched ++ [⟨pidAt procs k, t, t + burAt procs k⟩]) := by
          simp only [prioGo]
          rw [if_pos hterm, hs]
        have hsetadd : setAdd done (pidAt procs k) = done ++ [pidAt procs k] :=
          setAdd_not_mem hkun
        have hpidknotin : pidAt procs k ∉ done := fun hm => by
          rw [(contains_iff_mem done _).2 hm] at hkun
          cases hkun
        have hdnd' : (setAdd done (pidAt procs k)).Nodup := by
          rw [hsetadd]
          exact List.Nodup.append hdnd (List.nodup_singleton _)
            (fun a ha hb => hpidknotin ((List.mem_singleton.1 hb) ▸ ha))
        have hdsub' : ∀ s ∈ setAdd done (pidAt procs k), s ∈ procs.map (·.pid) := by
          rw [hsetadd]
          intro s hsm
          rcases List.mem_append.1 hsm with hs' | hs'
          · exact hdsub s hs'
          · rw [List.mem_singleton.1 hs', pidAt_eq hk]
            exact List.mem_map.2 ⟨procs[k], procs.getElem_mem hk, rfl⟩
        have hcons' : ∀ p ∈ procs,
            sumDur p.pid (sched ++ [⟨pidAt procs k, t, t + burAt procs k⟩]) =
              if (setAdd done (pidAt procs k)).contains p.pid then p.burst else 0 := by
          intro p hp
          rw [sumDur_append_one, hsetadd]
          by_cases hpp : pidAt procs k = p.pid
          · obtain ⟨j, hj, hjp⟩ := List.mem_iff_getElem.1 hp
            have hjk : j = k := pids_nodup_eq hnd hj hk (by rw [pidAt_eq hj, hjp, hpp])
            subst hjk
            have hpk : procs[j] = p := hjp
            have hco : (done ++ [pidAt procs j]).contains p.pid = true := by
              rw [contains_iff_mem]
              exact List.mem_append.2 (Or.inr (by rw [hpp]; exact List.mem_singleton_self _))
            rw [hco, if_pos hpp, hcons p hp]
            rw [show done.contains p.pid = false from by rw [← hpp]; exact hkun]
            simp only [Bool.false_eq_true, if_false, eq_self_iff_true, if_true]
            rw [burAt_eq hj, hpk]
            omega
          · have hco : (done ++ [pidAt procs k]).contains p.pid = done.contains p.pid :=
              contains_append_ne (fun h => hpp h.symm)
            rw [hco, if_neg hpp, hcons p hp]
            omega
        have hlen' : (setAdd done (pidAt procs k)).length = done.length + 1 := by
          rw [hsetadd]
          simp
        have hmul : (procs.length - done.length) * (maxArrival procs + 1) =
            (procs.length - (done.length + 1)) * (maxArrival procs + 1) +
              (maxArrival procs + 1) := by
          have h1 : procs.length - done.length = (procs.length - (done.length + 1)) + 1 := by
            omega
          rw [h1, Nat.succ_mul]
        rw [hmul] at hM
        obtain ⟨s, hsome, hfin⟩ := ih (t + burAt procs k) (setAdd done (pidAt procs k))
          (sched ++ [⟨pidAt procs k, t, t + burAt procs k⟩]) hdnd' hdsub' hcons'
          (by rw [hlen']; omega)
        exact ⟨s, by rw [hloop]; exact hsome, hfin⟩
    · refine ⟨sched, ?_, ?_⟩
      · simp only [prioGo]
        rw [if_neg hterm]
      · intro p hp
        have := all_pids_seen hnd hdnd hdsub (by omega) p hp
        rw [hcons p hp, this]
        simp

theorem sjfPush_fold_append (procs : List Proc) (t : Nat) (seen : List String) :
    ∀ (l : List Nat) (rdy : List Nat),
      ∃ new, l.foldl (sjfPush procs t seen) rdy = rdy ++ new ∧
        ∀ k ∈ new, k ∈ l ∧ seen.contains (pidAt procs k) = false ∧ arrAt procs k ≤ t := by
  intro l
  induction l with
  | nil => intro rdy; exact ⟨[], by simp, by intro k hk; cases hk⟩
  | cons k rest ih =>
    intro rdy
    rw [List.foldl_cons]
    cases hc : (!(seen.contains (pidAt procs k)) && decide (arrAt procs k ≤ t)
        && rdy.all (fun r => pidAt procs r != pidAt procs k)) with
    | false =>
      have hstep : sjfPush procs t seen rdy k = rdy := by
        unfold sjfPush
        rw [hc]
        simp
      rw [hstep]
      obtain ⟨new, heq, hprop⟩ := ih rdy
      exact ⟨new, heq, fun j hj =>
        ⟨List.mem_cons_of_mem k (hprop j hj).1, (hprop j hj).2.1, (hprop j hj).2.2⟩⟩
    | true =>
      have hstep : sjfPush procs t seen rdy k = rdy ++ [k] := by
        unfold sjfPush
        rw [hc]
        simp
      rw [hstep]
      obtain ⟨new, heq, hprop⟩ := ih (rdy ++ [k])
      rw [Bool.and_eq_true, Bool.and_eq_true] at hc
      obtain ⟨⟨hc1, hc2⟩, -⟩ := hc
      refine ⟨k :: new, by rw [heq]; simp, ?_⟩
      intro j hj
      rcases List.mem_cons.1 hj with rfl | hj'
      · refine ⟨List.mem_cons_self j rest, ?_, of_decide_eq_true hc2⟩
        rcases hb : seen.contains (pidAt procs j) with _ | _
        · rfl
        · rw [hb] at hc1
          cases hc1
      · exact ⟨List.mem_cons_of_mem k (hprop j hj').1, (hprop j hj').2.1, (hprop j hj').2.2⟩

theorem sjfPush_fold_pidNodup (procs : List Proc) (t : Nat) (seen : List String) :
    ∀ (l : List Nat) (rdy : List Nat),
      (rdy.map (pidAt procs)).Nodup →
      ((l.foldl (sjfPush procs t seen) rdy).map (pidAt procs)).Nodup := by
  intro l
  induction l with
  | nil => intro rdy h; exact h
  | cons k rest ih =>
    intro rdy hnd
    rw [List.foldl_cons]
    cases hc : (!(seen.contains (pidAt procs k)) && decide (arrAt procs k ≤ t)
        && rdy.all (fun r => pidAt procs r != pidAt procs k)) with
    | false =>
      have hstep : sjfPush procs t seen rdy k = rdy := by
        unfold sjfPush; rw [hc]; simp
      rw [hstep]
      exact ih rdy hnd
    | true =>
      have hstep : sjfPush procs t seen rdy k = rdy ++ [k] := by
        unfold sjfPush; rw [hc]; simp
      rw [hstep]
      apply ih
      rw [Bool.and_eq_true] at hc
      obtain ⟨-, hall⟩ := hc
      rw [List.map_append]
      refine List.Nodup.append hnd (List.nodup_singleton _) ?_
      intro x hx hx'
      obtain ⟨r, hr, hrx⟩ := List.mem_map.1 hx
      have := List.all_eq_true.1 hall r hr
      have hne : pidAt procs r ≠ pidAt procs k := by simpa using this
      rw [List.map_singleton, List.mem_singleton] at hx'
      exact hne (hrx.symm ▸ hx')

theorem sjfPush_fold_empty (procs : List Proc) (t : Nat) (seen : List String) :
    ∀ (l : List Nat),
      l.foldl (sjfPush procs t seen) [] = [] →
      ∀ k ∈ l, seen.contains (pidAt procs k) = false → ¬ (arrAt procs k ≤ t) := by
  intro l
  induction l with
  | nil => intro _ k hk; cases hk
  | cons k rest ih =>
    intro hempty j hj
    rw [List.foldl_cons] at hempty
    cases hc : (!(seen.contains (pidAt procs k)) && decide (arrAt procs k ≤ t)
        && ([] : List Nat).all (fun r => pidAt procs r != pidAt procs k)) with
    | true =>
      exfalso
      have hstep : sjfPush procs t seen [] k = [k] := by
        unfold sjfPush; rw [hc]; simp
      rw [hstep] at hempty
      obtain ⟨new, heq, -⟩ := sjfPush_fold_append procs t seen rest [k]
      rw [heq] at hempty
      simp at hempty
    | false =>
      have hstep : sjfPush procs t seen [] k = [] := by
        unfold sjfPush; rw [hc]; simp
      rw [hstep] at hempty
      rcases List.mem_cons.1 hj with rfl | hj'
      · intro hunseen harr
        rw [hunseen] at hc
        simp [harr] at hc
      · exact ih hempty j hj'

theorem sjfGo_spec (procs : List Proc) (hnd : (procs.map (·.pid)).Nodup) :
    ∀ (fuel t : Nat) (ready : List Nat) (seen : List String) (sched : List Seg),
      seen.Nodup →
      (∀ s ∈ seen, s ∈ procs.map (·.pid)) →
      (∀ k ∈ ready, k < procs.length ∧ seen.contains (pidAt procs k) = false) →
      (ready.map (pidAt procs)).Nodup →
      (∀ p ∈ procs, sumDur p.pid sched = if seen.contains p.pid then p.burst else 0) →
      (procs.length - seen.length) * (maxArrival procs + 1) + (maxArrival procs - t) < fuel →
      ∃ s, sjfGo procs fuel t ready seen sched = some s ∧
        ∀ p ∈ procs, sumDur p.pid s = p.burst := by
  intro fuel
  induction fuel with
  | zero => intro t ready seen sched _ _ _ _ _ h; omega
  | succ f ih =>
    intro t ready seen sched hsnd hssub hc hd hcons hM
    by_cases hterm : seen.length < procs.length
    · obtain ⟨new, heq, hnew⟩ := sjfPush_fold_append procs t seen (List.range procs.length) ready
      have hc' : ∀ k ∈ sjfEnqueue procs t seen ready,
          k < procs.length ∧ seen.contains (pidAt procs k) = false := by
        intro k hk
        rw [show sjfEnqueue procs t seen ready =
          (List.range procs.length).foldl (sjfPush procs t seen) ready from rfl, heq] at hk
        rcases List.mem_append.1 hk with hk' | hk'
        · exact hc k hk'
        · exact ⟨List.mem_range.1 (hnew k hk').1, (hnew k hk').2.1⟩
      have hd' : ((sjfEnqueue procs t seen ready).map (pidAt procs)).Nodup :=
        sjfPush_fold_pidNodup procs t seen (List.range procs.length) ready hd
      cases hs : List.insertionSort (fun a b => burAt procs a ≤ burAt procs b)
          (sjfEnqueue procs t seen ready) with
      | nil =>
        have hready' : sjfEnqueue procs t seen ready = [] := by
          have hperm := List.perm_insertionSort (fun a b => burAt procs a ≤ burAt procs b)
            (sjfEnqueue procs t seen ready)
          rw [hs] at hperm
          exact hperm.symm.eq_nil
        have hreadynil : ready = [] := by
          rw [show sjfEnqueue procs t seen ready =
            (List.range procs.length).foldl (sjfPush procs t seen) ready from rfl, heq] at hready'
          exact (List.append_eq_nil.1 hready').1
        have hloop : sjfGo procs (f + 1) t ready seen sched =
            sjfGo procs f (t + 1) (sjfEnqueue procs t seen ready) seen sched := by
          simp only [sjfGo]
          rw [if_pos hterm, hs]
        obtain ⟨k, hk, hkun⟩ := exists_unseen hnd hssub hterm
        have harr : t < arrAt procs k := by
          by_contra hle'
          push_neg at hle'
          have hempty : (List.range procs.length).foldl (sjfPush procs t seen) [] = [] := by
            have h2 : (List.range procs.length).foldl (sjfPush procs t seen) ready = [] := hready'
            rw [hreadynil] at h2
            exact h2
          exact (sjfPush_fold_empty procs t seen (List.range procs.length) hempty k
            (List.mem_range.2 hk) hkun) hle'
        have hA : arrAt procs k ≤ maxArrival procs := by
          rw [arrAt_eq hk]
          exact maxArrival_ge (procs.getElem_mem hk)
        obtain ⟨s, hsome, hfin⟩ := ih (t + 1) (sjfEnqueue procs t seen ready) seen sched
          hsnd hssub hc' hd' hcons (by omega)
        exact ⟨s, by rw [hloop]; exact hsome, hfin⟩
      | cons k rest =>
        have hperm := List.perm_insertionSort (fun a b => burAt procs a ≤ burAt procs b)
          (sjfEnqueue procs t seen ready)
        have hkready : k ∈ sjfEnqueue procs t seen ready :=
          hperm.subset (hs ▸ List.mem_cons_self k rest)
        obtain ⟨hk, hkun⟩ := hc' k hkready
        have hsortnd : ((k :: rest).map (pidAt procs)).Nodup := by
          have : ((sjfEnqueue procs t seen ready).map (pidAt procs)).Perm
              ((List.insertionSort (fun a b => burAt procs a ≤ burAt procs b)
                (sjfEnqueue procs t seen ready)).map (pidAt procs)) :=
            (hperm.map (pidAt procs)).symm
          rw [hs] at this
          exact this.nodup hd'
        rw [List.map_cons] at hsortnd
        obtain ⟨hknotin, hrestnd⟩ := List.nodup_cons.1 hsortnd
        have hcrest : ∀ r ∈ rest, r < procs.length ∧
            (setAdd seen (pidAt procs k)).contains (pidAt procs r) = false := by
          intro r hr
          have hrready : r ∈ sjfEnqueue procs t seen ready :=
            hperm.subset (hs ▸ List.mem_cons_of_mem k hr)
          obtain ⟨hrn, hrun⟩ := hc' r hrready
          refine ⟨hrn, ?_⟩
          have hrk : pidAt procs r ≠ pidAt procs k := by
            intro he
            exact hknotin (he ▸ List.mem_map.2 ⟨r, hr, rfl⟩)
          rw [setAdd_not_mem hkun, contains_append_ne hrk]
          exact hrun
        have hloop : sjfGo procs (f + 1) t ready seen sched =
            sjfGo procs f (t + burAt procs k) rest (setAdd seen (pidAt procs k))
              (sched ++ [⟨pidAt procs k, t, t + burAt procs k⟩]) := by
          simp only [sjfGo]
          rw [if_pos hterm, hs]
        have hsetadd : setAdd seen (pidAt procs k) = seen ++ [pidAt procs k] :=
          setAdd_not_mem hkun
        have hpidknotin : pidAt procs k ∉ seen := fun hm => by
          rw [(contains_iff_mem seen _).2 hm] at hkun
          cases hkun
        have hsnd' : (setAdd seen (pidAt procs k)).Nodup := by
          rw [hsetadd]
          exact List.Nodup.append hsnd (List.nodup_singleton _)
            (fun a ha hb => hpidknotin ((List.mem_singleton.1 hb) ▸ ha))
        have hssub' : ∀ s ∈ setAdd seen (pidAt procs k), s ∈ procs.map (·.pid) := by
          rw [hsetadd]
          intro s hsm
          rcases List.mem_append.1 hsm with hs' | hs'
          · exact hssub s hs'
          · rw [List.mem_singleton.1 hs', pidAt_eq hk]
            exact List.mem_map.2 ⟨procs[k], procs.getElem_mem hk, rfl⟩
        have hcons' : ∀ p ∈ procs,
            sumDur p.pid (sched ++ [⟨pidAt procs k, t, t + burAt procs k⟩]) =
              if (setAdd seen (pidAt procs k)).contains p.pid then p.burst else 0 := by
          intro p hp
          rw [sumDur_append_one, hsetadd]
          by_cases hpp : pidAt procs k = p.pid
          · obtain ⟨j, hj, hjp⟩ := List.mem_iff_getElem.1 hp
            have hjk : j = k := pids_nodup_eq hnd hj hk (by rw [pidAt_eq hj, hjp, hpp])
            subst hjk
            have hpk : procs[j] = p := hjp
            have hco : (seen ++ [pidAt procs j]).contains p.pid = true := by
              rw [contains_iff_mem]
              exact List.mem_append.2 (Or.inr (by rw [hpp]; exact List.mem_singleton_self _))
            rw [hco, if_pos hpp, hcons p hp]
            rw [show seen.contains p.pid = false from by rw [← hpp]; exact hkun]
            simp only [Bool.false_eq_true, if_false, eq_self_iff_true, if_true]
            rw [burAt_eq hj, hpk]
            omega
          · have hco : (seen ++ [pidAt procs k]).contains p.pid = seen.contains p.pid :=
              contains_append_ne (fun h => hpp h.symm)
            rw [hco, if_neg hpp, hcons p hp]
            omega
        have hlen' : (setAdd seen (pidAt procs k)).length = seen.length + 1 := by
          rw [hsetadd]
          simp
        have hmul : (procs.length - seen.length) * (maxArrival procs + 1) =
            (procs.length - (seen.length + 1)) * (maxArrival procs + 1) +
              (maxArrival procs + 1) := by
          have h1 : procs.length - seen.length = (procs.length - (seen.length + 1)) + 1 := by
            omega
          rw [h1, Nat.succ_mul]
        rw [hmul] at hM
        obtain ⟨s, hsome, hfin⟩ := ih (t + burAt procs k) rest (setAdd seen (pidAt procs k))
          (sched ++ [⟨pidAt procs k, t, t + burAt procs k⟩]) hsnd' hssub' hcrest hrestnd hcons'
          (by rw [hlen']; omega)
        exact ⟨s, by rw [hloop]; exact hsome, hfin⟩
    · refine ⟨sched, ?_, ?_⟩
      · simp only [sjfGo]
        rw [if_neg hterm]
      · intro p hp
        have := all_pids_seen hnd hsnd hssub (by omega) p hp
        rw [hcons p hp, this]
        simp

theorem sum_set_sub : ∀ (l : List Nat) (k d : Nat), k < l.length → d ≤ l.getD k 0 →
    (l.set k (l.getD k 0 - d)).sum + d = l.sum := by
  intro l
  induction l with
  | nil => intro k d hk; simp at hk
  | cons x rest ih =>
    intro k d hk hd
    cases k with
    | zero =>
      simp only [List.getD] at hd ⊢
      simp only [List.set_cons_zero, List.sum_cons]
      simp only [List.get?_cons_zero, Option.getD_some] at hd ⊢
      omega
    | succ k' =>
      have hk' : k' < rest.length := by simpa using hk
      have hd' : d ≤ rest.getD k' 0 := by simpa [List.getD] using hd
      have hgd : (x :: rest).getD (k' + 1) 0 = rest.getD k' 0 := by
        simp [List.getD]
      rw [hgd]
      simp only [List.set_cons_succ, List.sum_cons]
      have := ih k' d hk' hd'
      omega

theorem enqGo_struct (procs : List Proc) (t : Nat) :
    ∀ (f : Nat) (rdy : List Nat) (i : Nat),
      i ≤ (enqGo procs t f rdy i).2 ∧
      (enqGo procs t f rdy i).1 = rdy ++ List.range' i ((enqGo procs t f rdy i).2 - i) ∧
      (∀ k, i ≤ k → k < (enqGo procs t f rdy i).2 → k < procs.length ∧ arrAt procs k ≤ t) := by
  intro f
  induction f with
  | zero =>
    intro rdy i
    refine ⟨Nat.le_refl i, by simp [enqGo], ?_⟩
    intro k h1 h2
    simp only [enqGo] at h2
    omega
  | succ f ih =>
    intro rdy i
    by_cases hc : i < procs.length ∧ arrAt procs i ≤ t
    · have hstep : enqGo procs t (f + 1) rdy i = enqGo procs t f (rdy ++ [i]) (i + 1) := by
        simp only [enqGo]
        rw [if_pos hc]
      rw [hstep]
      obtain ⟨h1, h2, h3⟩ := ih (rdy ++ [i]) (i + 1)
      refine ⟨by omega, ?_, ?_⟩
      · rw [h2, List.append_assoc]
        congr 1
        have hlen : (enqGo procs t f (rdy ++ [i]) (i + 1)).2 - i =
            ((enqGo procs t f (rdy ++ [i]) (i + 1)).2 - (i + 1)) + 1 := by omega
        rw [hlen, List.range'_succ]
        rfl
      · intro k hk1 hk2
        rcases Nat.eq_or_lt_of_le hk1 with rfl | hk1'
        · exact ⟨hc.1, hc.2⟩
        · exact h3 k hk1' hk2
    · have hstep : enqGo procs t (f + 1) rdy i = (rdy, i) := by
        simp only [enqGo]
        rw [if_neg hc]
      rw [hstep]
      refine ⟨Nat.le_refl i, by simp, ?_⟩
      intro k h1 h2
      simp only at h2
      omega

theorem enqGo_stop (procs : List Proc) (t : Nat) :
    ∀ (f : Nat) (rdy : List Nat) (i : Nat), i + f = procs.length →
      (enqGo procs t f rdy i).2 ≤ procs.length ∧
      ((enqGo procs t f rdy i).2 < procs.length →
        ¬ (arrAt procs (enqGo procs t f rdy i).2 ≤ t)) := by
  intro f
  induction f with
  | zero =>
    intro rdy i hf
    simp only [enqGo]
    omega
  | succ f ih =>
    intro rdy i hf
    by_cases hc : i < procs.length ∧ arrAt procs i ≤ t
    · have hstep : enqGo procs t (f + 1) rdy i = enqGo procs t f (rdy ++ [i]) (i + 1) := by
        simp only [enqGo]
        rw [if_pos hc]
      rw [hstep]
      exact ih (rdy ++ [i]) (i + 1) (by omega)
    · have hstep : enqGo procs t (f + 1) rdy i = (rdy, i) := by
        simp only [enqGo]
        rw [if_neg hc]
      rw [hstep]
      constructor
      · show i ≤ procs.length
        omega
      · intro hlt harr
        exact hc ⟨hlt, harr⟩

theorem remAt_set_self {rem : List Nat} {k : Nat} (h : k < rem.length) (v : Nat) :
    remAt (rem.set k v) k = v := by
  unfold remAt
  rw [List.getD_eq_getElem?_getD, List.getElem?_set_self h, Option.getD_some]

theorem remAt_set_ne (rem : List Nat) {j k : Nat} (h : k ≠ j) (v : Nat) :
    remAt (rem.set k v) j = remAt rem j := by
  unfold remAt
  rw [List.getD_eq_getElem?_getD, List.getD_eq_getElem?_getD, List.getElem?_set_ne h]

theorem remAt_map_burst {procs : List Proc} {j : Nat} (h : j < procs.length) :
    remAt (procs.map (·.burst)) j = burAt procs j := by
  unfold remAt
  rw [List.getD_eq_getElem?_getD, List.getElem?_map, List.getElem?_eq_getElem h]
  simp [burAt_eq h]

theorem rrDispatch_eq (procs : List Proc) (q : Nat) (st : RRState) (k : Nat) (rest : List Nat)
    (i₁ : Nat) :
    rrDispatch procs q st k rest i₁ =
      ⟨st.rem.set k (remAt st.rem k - min q (remAt st.rem k)),
       if 0 < remAt (st.rem.set k (remAt st.rem k - min q (remAt st.rem k))) k
         then (enqGo procs (st.t + min q (remAt st.rem k)) (procs.length - i₁) rest i₁).1 ++ [k]
         else (enqGo procs (st.t + min q (remAt st.rem k)) (procs.length - i₁) rest i₁).1,
       (enqGo procs (st.t + min q (remAt st.rem k)) (procs.length - i₁) rest i₁).2,
       st.t + min q (remAt st.rem k),
       st.sched ++ [⟨pidAt procs k, st.t, st.t + min q (remAt st.rem k)⟩]⟩ := rfl

theorem burAt_pos {procs : List Proc} (hburst : ∀ p ∈ procs, 1 ≤ p.burst)
    {j : Nat} (hj : j < procs.length) : 1 ≤ burAt procs j := by
  rw [burAt_eq hj]
  exact hburst _ (List.getElem_mem hj)

theorem iteOneZero_le_one (c : Prop) [inst : Decidable c] : (if c then (1 : Nat) else 0) ≤ 1 := by
  split
  · omega
  · omega

theorem rrGo_spec (procs : List Proc) (q : Nat) (hnd : (procs.map (·.pid)).Nodup)
    (hq : 1 ≤ q) (hburst : ∀ p ∈ procs, 1 ≤ p.burst) :
    ∀ (fuel : Nat) (st : RRState),
      st.rem.length = procs.length →
      st.i ≤ procs.length →
      (∀ j ∈ st.ready, j < st.i ∧ 1 ≤ remAt st.rem j) →
      st.ready.Nodup →
      (∀ j, st.i ≤ j → j < procs.length →
        remAt st.rem j = burAt procs j ∧ sumDur (pidAt procs j) st.sched = 0) →
      (∀ j, j < st.i → sumDur (pidAt procs j) st.sched + remAt st.rem j = burAt procs j) →
      (∀ j, j < st.i → j ∉ st.ready → remAt st.rem j = 0) →
      2 * st.rem.sum + 2 * (procs.length - st.i) +
        (if st.ready = [] ∧ st.i < procs.length ∧ st.t < arrAt procs st.i then 1 else 0) < fuel →
      ∃ s, rrGo procs q fuel st = some s ∧
        ∀ j, j < procs.length → sumDur (pidAt procs j) s = burAt procs j := by
  intro fuel
  induction fuel with
  | zero =>
    intro st _ _ _ _ _ _ _ hM
    exact absurd hM (Nat.not_lt_zero _)
  | succ f ih =>
    intro st hlen hile hready hndr huntouched hacc hzero hM
    by_cases hcond : 0 < st.ready.length ∨ st.i < procs.length
    · obtain ⟨ready₁, i₁, hE⟩ : ∃ r i, enqueueArrived procs st.t st.ready st.i = (r, i) :=
        ⟨(enqueueArrived procs st.t st.ready st.i).1,
         (enqueueArrived procs st.t st.ready st.i).2, rfl⟩
      have hE' : enqGo procs st.t (procs.length - st.i) st.ready st.i = (ready₁, i₁) := hE
      have hfst : (enqGo procs st.t (procs.length - st.i) st.ready st.i).1 = ready₁ := by
        rw [hE']
      have hsnd : (enqGo procs st.t (procs.length - st.i) st.ready st.i).2 = i₁ := by
        rw [hE']
      obtain ⟨hA1, hA2, hA3⟩ := enqGo_struct procs st.t (procs.length - st.i) st.ready st.i
      obtain ⟨hB1, hB2⟩ := enqGo_stop procs st.t (procs.length - st.i) st.ready st.i (by omega)
      rw [hsnd] at hA1 hA3 hB1 hB2
      rw [hfst, hsnd] at hA2
      cases ready₁ with
      | nil =>
        obtain ⟨hrnil, hrangenil⟩ := List.append_eq_nil.1 hA2.symm
        have hii : i₁ = st.i := by
          have hlr := congrArg List.length hrangenil
          rw [List.length_range'] at hlr
          simp at hlr
          omega
        subst hii
        have hstilt : st.i < procs.length := by
          rcases hcond with h | h
          · rw [hrnil] at h; simp at h
          · exact h
        have harr : ¬ arrAt procs st.i ≤ st.t := hB2 hstilt
        have ht' : ((procs.get? st.i).map (·.arrival)).getD (st.t + 1) = arrAt procs st.i := by
          rw [List.get?_eq_getElem?, List.getElem?_eq_getElem hstilt]
          simp [arrAt_eq hstilt]
        have hstep : rrGo procs q (f + 1) st = rrGo procs q f
            ⟨st.rem, [], st.i, ((procs.get? st.i).map (·.arrival)).getD (st.t + 1),
              st.sched⟩ := by
          simp only [rrGo]
          rw [if_pos hcond, hE]
        rw [hstep]
        refine ih _ hlen hile ?_ List.nodup_nil ?_ ?_ ?_ ?_
        · intro j hj
          simp at hj
        · intro j h1 h2
          exact huntouched j h1 h2
        · intro j h1
          exact hacc j h1
        · intro j h1 _
          refine hzero j h1 ?_
          rw [hrnil]
          exact List.not_mem_nil j
        · show 2 * st.rem.sum + 2 * (procs.length - st.i) +
            (if ([] : List Nat) = [] ∧ st.i < procs.length ∧
              ((procs.get? st.i).map (·.arrival)).getD (st.t + 1) < arrAt procs st.i
             then 1 else 0) < f
          rw [ht']
          have h0 : (if ([] : List Nat) = [] ∧ st.i < procs.length ∧
              arrAt procs st.i < arrAt procs st.i then 1 else 0) = 0 := by
            simp
          rw [h0]
          rw [if_pos ⟨hrnil, hstilt, by omega⟩] at hM
          omega
      | cons k rest =>
        have hall : ∀ j ∈ k :: rest, j < i₁ ∧ j < procs.length ∧ 1 ≤ remAt st.rem j := by
          intro j hj
          rw [hA2] at hj
          rcases List.mem_append.1 hj with h | h
          · obtain ⟨hji, hjr⟩ := hready j h
            exact ⟨by omega, by omega, hjr⟩
          · have hm := List.mem_range'_1.1 h
            have hm2 := hA3 j (by omega) (by omega)
            refine ⟨by omega, hm2.1, ?_⟩
            rw [(huntouched j (by omega) hm2.1).1]
            exact burAt_pos hburst hm2.1
        have hnd1 : (k :: rest).Nodup := by
          rw [hA2]
          refine List.Nodup.append hndr (List.nodup_range' _ _) ?_
          intro a ha hb
          have h1 := (hready a ha).1
          have h2 := (List.mem_range'_1.1 hb).1
          omega
        obtain ⟨hknr, hrest_nd⟩ := List.nodup_cons.1 hnd1
        obtain ⟨hki, hk3, hkrem⟩ := hall k (List.mem_cons_self k rest)
        have hrun1 : 1 ≤ min q (remAt st.rem k) := Nat.le_min.2 ⟨hq, hkrem⟩
        have hrunle : min q (remAt st.rem k) ≤ remAt st.rem k := Nat.min_le_right _ _
        have hpidne : ∀ j, j < procs.length → j ≠ k →
            pidAt procs j ≠ pidAt procs k :=
          fun j hj hne hp => hne (pids_nodup_eq hnd hj hk3 hp)
        obtain ⟨hF1le, hF1eq, hF1mem⟩ :=
          enqGo_struct procs (st.t + min q (remAt st.rem k)) (procs.length - i₁) rest i₁
        obtain ⟨hF2le, hF2stop⟩ :=
          enqGo_stop procs (st.t + min q (remAt st.rem k)) (procs.length - i₁) rest i₁
            (by omega)
        have hsum_j : ∀ j, j < procs.length → j ≠ k →
            sumDur (pidAt procs j)
              (st.sched ++ [⟨pidAt procs k, st.t, st.t + min q (remAt st.rem k)⟩]) =
              sumDur (pidAt procs j) st.sched := by
          intro j hj hne
          rw [sumDur_append_one, if_neg (fun he => hpidne j hj hne he.symm)]
          omega
        have hsum_k :
            sumDur (pidAt procs k)
              (st.sched ++ [⟨pidAt procs k, st.t, st.t + min q (remAt st.rem k)⟩]) =
              sumDur (pidAt procs k) st.sched + min q (remAt st.rem k) := by
          rw [sumDur_append_one, if_pos rfl]
          show sumDur (pidAt procs k) st.sched + (st.t + min q (remAt st.rem k) - st.t) =
            sumDur (pidAt procs k) st.sched + min q (remAt st.rem k)
          omega
        have h1 : (st.rem.set k (remAt st.rem k - min q (remAt st.rem k))).length =
            procs.length := by
          rw [List.length_set]; exact hlen
        have hklen : k < st.rem.length := by omega
        have h2 : (enqGo procs (st.t + min q (remAt st.rem k)) (procs.length - i₁)
            rest i₁).2 ≤ procs.length := hF2le
        have h3 : ∀ j, j ∈ (if 0 < remAt (st.rem.set k (remAt st.rem k -
              min q (remAt st.rem k))) k
            then (enqGo procs (st.t + min q (remAt st.rem k)) (procs.length - i₁)
              rest i₁).1 ++ [k]
            else (enqGo procs (st.t + min q (remAt st.rem k)) (procs.length - i₁)
              rest i₁).1) →
            j < (enqGo procs (st.t + min q (remAt st.rem k)) (procs.length - i₁)
              rest i₁).2 ∧
            1 ≤ remAt (st.rem.set k (remAt st.rem k - min q (remAt st.rem k))) j := by
          intro j hj
          have hj2 : j ∈ (enqGo procs (st.t + min q (remAt st.rem k)) (procs.length - i₁)
              rest i₁).1 ∨
              (j = k ∧ 0 < remAt (st.rem.set k (remAt st.rem k -
                min q (remAt st.rem k))) k) := by
            by_cases hg : 0 < remAt (st.rem.set k (remAt st.rem k -
                min q (remAt st.rem k))) k
            · rw [if_pos hg] at hj
              rcases List.mem_append.1 hj with h | h
              · exact Or.inl h
              · right; exact ⟨by simpa using h, hg⟩
            · rw [if_neg hg] at hj
              exact Or.inl hj
          rcases hj2 with hj2 | ⟨rfl, hg⟩
          · rw [hF1eq] at hj2
            rcases List.mem_append.1 hj2 with h | h
            · obtain ⟨hji, hjl, hjr⟩ := hall j (List.mem_cons_of_mem k h)
              have hjk : j ≠ k := fun he => hknr (he ▸ h)
              refine ⟨by omega, ?_⟩
              rw [remAt_set_ne st.rem (fun h' => hjk h'.symm)]
              exact hjr
            · have hm := List.mem_range'_1.1 h
              have hjk : j ≠ k := by omega
              have hjl := (hF1mem j (by omega) (by omega)).1
              refine ⟨by omega, ?_⟩
              rw [remAt_set_ne st.rem (fun h' => hjk h'.symm)]
              rw [(huntouched j (by omega) hjl).1]
              exact burAt_pos hburst hjl
          · exact ⟨by omega, hg⟩
        have hnd2 : (enqGo procs (st.t + min q (remAt st.rem k)) (procs.length - i₁)
            rest i₁).1.Nodup := by
          rw [hF1eq]
          refine List.Nodup.append hrest_nd (List.nodup_range' _ _) ?_
          intro a ha hb
          have h1' := (hall a (List.mem_cons_of_mem k ha)).1
          have h2' := (List.mem_range'_1.1 hb).1
          omega
        have h4 : (if 0 < remAt (st.rem.set k (remAt st.rem k - min q (remAt st.rem k))) k
            then (enqGo procs (st.t + min q (remAt st.rem k)) (procs.length - i₁)
              rest i₁).1 ++ [k]
            else (enqGo procs (st.t + min q (remAt st.rem k)) (procs.length - i₁)
              rest i₁).1).Nodup := by
          by_cases hg : 0 < remAt (st.rem.set k (remAt st.rem k - min q (remAt st.rem k))) k
          · rw [if_pos hg]
            refine List.Nodup.append hnd2 (List.nodup_singleton k) ?_
            intro a ha hb
            have hak : a = k := by simpa using hb
            subst hak
            rw [hF1eq] at ha
            rcases List.mem_append.1 ha with h | h
            · exact hknr h
            · have := (List.mem_range'_1.1 h).1
              omega
          · rw [if_neg hg]
            exact hnd2
        have h5 : ∀ j, (enqGo procs (st.t + min q (remAt st.rem k)) (procs.length - i₁)
              rest i₁).2 ≤ j → j < procs.length →
            remAt (st.rem.set k (remAt st.rem k - min q (remAt st.rem k))) j =
              burAt procs j ∧
            sumDur (pidAt procs j)
              (st.sched ++ [⟨pidAt procs k, st.t, st.t + min q (remAt st.rem k)⟩]) = 0 := by
          intro j hj1 hj2
          have hjk : j ≠ k := by omega
          constructor
          · rw [remAt_set_ne st.rem (fun h' => hjk h'.symm)]
            exact (huntouched j (by omega) hj2).1
          · rw [hsum_j j hj2 hjk]
            exact (huntouched j (by omega) hj2).2
        have h6 : ∀ j, j < (enqGo procs (st.t + min q (remAt st.rem k)) (procs.length - i₁)
              rest i₁).2 →
            sumDur (pidAt procs j)
              (st.sched ++ [⟨pidAt procs k, st.t, st.t + min q (remAt st.rem k)⟩]) +
              remAt (st.rem.set k (remAt st.rem k - min q (remAt st.rem k))) j =
              burAt procs j := by
          intro j hj
          by_cases hjk : j = k
          · subst hjk
            rw [hsum_k, remAt_set_self (by omega : j < st.rem.length)]
            have hold : sumDur (pidAt procs j) st.sched + remAt st.rem j =
                burAt procs j := by
              by_cases hjs : j < st.i
              · exact hacc j hjs
              · have := huntouched j (by omega) hk3
                omega
            omega
          · have hjl : j < procs.length := by omega
            rw [hsum_j j hjl hjk, remAt_set_ne st.rem (fun h' => hjk h'.symm)]
            by_cases hjs : j < st.i
            · exact hacc j hjs
            · have := huntouched j (by omega) hjl
              omega
        have h7 : ∀ j, j < (enqGo procs (st.t + min q (remAt st.rem k)) (procs.length - i₁)
              rest i₁).2 →
            j ∉ (if 0 < remAt (st.rem.set k (remAt st.rem k - min q (remAt st.rem k))) k
              then (enqGo procs (st.t + min q (remAt st.rem k)) (procs.length - i₁)
                rest i₁).1 ++ [k]
              else (enqGo procs (st.t + min q (remAt st.rem k)) (procs.length - i₁)
                rest i₁).1) →
            remAt (st.rem.set k (remAt st.rem k - min q (remAt st.rem k))) j = 0 := by
          intro j hj hjr
          by_cases hjk : j = k
          · subst hjk
            by_cases hg : 0 < remAt (st.rem.set j (remAt st.rem j -
                min q (remAt st.rem j))) j
            · exfalso
              apply hjr
              rw [if_pos hg]
              exact List.mem_append.2 (Or.inr (List.mem_singleton.2 rfl))
            · omega
          · have hjr2 : j ∉ (enqGo procs (st.t + min q (remAt st.rem k))
                (procs.length - i₁) rest i₁).1 := by
              intro hmem
              apply hjr
              by_cases hg : 0 < remAt (st.rem.set k (remAt st.rem k -
                  min q (remAt st.rem k))) k
              · rw [if_pos hg]
                exact List.mem_append.2 (Or.inl hmem)
              · rw [if_neg hg]
                exact hmem
            rw [remAt_set_ne st.rem (fun h' => hjk h'.symm)]
            by_cases hjs : j < st.i
            · refine hzero j hjs ?_
              intro hmemready
              have hjin : j ∈ k :: rest := by
                rw [hA2]
                exact List.mem_append.2 (Or.inl hmemready)
              rcases List.mem_cons.1 hjin with h | h
              · exact hjk h
              · exact hjr2 (by rw [hF1eq]; exact List.mem_append.2 (Or.inl h))
            · exfalso
              by_cases hji : j < i₁
              · have hjin : j ∈ k :: rest := by
                  rw [hA2]
                  exact List.mem_append.2 (Or.inr (List.mem_range'_1.2 ⟨by omega, by omega⟩))
                rcases List.mem_cons.1 hjin with h | h
                · exact hjk h
                · exact hjr2 (by rw [hF1eq]; exact List.mem_append.2 (Or.inl h))
              · apply hjr2
                rw [hF1eq]
                exact List.mem_append.2 (Or.inr (List.mem_range'_1.2 ⟨by omega, by omega⟩))
        have h8 : 2 * (st.rem.set k (remAt st.rem k - min q (remAt st.rem k))).sum +
            2 * (procs.length - (enqGo procs (st.t + min q (remAt st.rem k))
              (procs.length - i₁) rest i₁).2) +
            (if (if 0 < remAt (st.rem.set k (remAt st.rem k - min q (remAt st.rem k))) k
                then (enqGo procs (st.t + min q (remAt st.rem k)) (procs.length - i₁)
                  rest i₁).1 ++ [k]
                else (enqGo procs (st.t + min q (remAt st.rem k)) (procs.length - i₁)
                  rest i₁).1) = [] ∧
              (enqGo procs (st.t + min q (remAt st.rem k)) (procs.length - i₁)
                rest i₁).2 < procs.length ∧
              st.t + min q (remAt st.rem k) < arrAt procs
                ((enqGo procs (st.t + min q (remAt st.rem k)) (procs.length - i₁)
                  rest i₁).2)
             then 1 else 0) < f := by
          have hsum2 : (st.rem.set k (remAt st.rem k - min q (remAt st.rem k))).sum +
              min q (remAt st.rem k) = st.rem.sum :=
            sum_set_sub st.rem k (min q (remAt st.rem k)) hklen hrunle
          have hMle : 2 * st.rem.sum + 2 * (procs.length - st.i) < f + 1 :=
            lt_of_le_of_lt (Nat.le_add_right _ _) hM
          have hfl : (if (if 0 < remAt (st.rem.set k (remAt st.rem k -
                  min q (remAt st.rem k))) k
                then (enqGo procs (st.t + min q (remAt st.rem k)) (procs.length - i₁)
                  rest i₁).1 ++ [k]
                else (enqGo procs (st.t + min q (remAt st.rem k)) (procs.length - i₁)
                  rest i₁).1) = [] ∧
              (enqGo procs (st.t + min q (remAt st.rem k)) (procs.length - i₁)
                rest i₁).2 < procs.length ∧
              st.t + min q (remAt st.rem k) < arrAt procs
                ((enqGo procs (st.t + min q (remAt st.rem k)) (procs.length - i₁)
                  rest i₁).2)
             then 1 else 0) ≤ 1 := iteOneZero_le_one _
          omega
        have hstep : rrGo procs q (f + 1) st =
            rrGo procs q f (rrDispatch procs q st k rest i₁) := by
          simp only [rrGo]
          rw [if_pos hcond, hE]
        rw [hstep, rrDispatch_eq]
        exact ih _ h1 h2 h3 h4 h5 h6 h7 h8
    · have h1' : ¬ 0 < st.ready.length := fun h => hcond (Or.inl h)
      have h2' : ¬ st.i < procs.length := fun h => hcond (Or.inr h)
      have hrnil : st.ready = [] := by
        cases hr : st.ready with
        | nil => rfl
        | cons a l => rw [hr] at h1'; simp at h1'
      have hstep : rrGo procs q (f + 1) st = some st.sched := by
        simp only [rrGo]
        rw [if_neg hcond]
      refine ⟨st.sched, hstep, ?_⟩
      intro j hj
      have hji : j < st.i := by omega
      have hz := hzero j hji (by rw [hrnil]; exact List.not_mem_nil j)
      have ha := hacc j hji
      omega

theorem roundRobin_conservation (ps : List Proc) (q : Nat)
    (hnd : (ps.map (·.pid)).Nodup) (hq : 1 ≤ q) (hburst : ∀ p ∈ ps, 1 ≤ p.burst) :
    ∃ s, roundRobin ps q = some s ∧ ∀ p ∈ ps, sumDur p.pid s = p.burst := by
  have hperm : List.Perm (List.insertionSort (fun a b => a.arrival ≤ b.arrival) ps) ps :=
    List.perm_insertionSort _ _
  have hnd' : ((List.insertionSort (fun a b => a.arrival ≤ b.arrival) ps).map
      (·.pid)).Nodup := (hperm.map _).nodup_iff.2 hnd
  have hburst' : ∀ p ∈ List.insertionSort (fun a b => a.arrival ≤ b.arrival) ps,
      1 ≤ p.burst := fun p hp => hburst p (hperm.mem_iff.1 hp)
  obtain ⟨s, hs, hcons⟩ := rrGo_spec
    (List.insertionSort (fun a b => a.arrival ≤ b.arrival) ps) q hnd' hq hburst'
    (2 * ((List.insertionSort (fun a b => a.arrival ≤ b.arrival) ps).map (·.burst)).sum +
      2 * (List.insertionSort (fun a b => a.arrival ≤ b.arrival) ps).length + 2)
    ⟨(List.insertionSort (fun a b => a.arrival ≤ b.arrival) ps).map (·.burst), [], 0,
      (((List.insertionSort (fun a b => a.arrival ≤ b.arrival) ps).head?).map
        (·.arrival)).getD 0, []⟩
    (by simp) (Nat.zero_le _) (by intro j hj; simp at hj) List.nodup_nil
    (by
      intro j h1 h2
      refine ⟨remAt_map_burst h2, ?_⟩
      simp [sumDur])
    (by intro j h1; exact absurd h1 (Nat.not_lt_zero j))
    (by intro j h1 _; exact absurd h1 (Nat.not_lt_zero j))
    (by
      show 2 * ((List.insertionSort (fun a b => a.arrival ≤ b.arrival) ps).map
          (·.burst)).sum +
        2 * ((List.insertionSort (fun a b => a.arrival ≤ b.arrival) ps).length - 0) +
        (if (([] : List Nat) = [] ∧
            0 < (List.insertionSort (fun a b => a.arrival ≤ b.arrival) ps).length ∧
            ((((List.insertionSort (fun a b => a.arrival ≤ b.arrival) ps).head?).map
              (·.arrival)).getD 0 <
              arrAt (List.insertionSort (fun a b => a.arrival ≤ b.arrival) ps) 0))
         then 1 else 0) <
        2 * ((List.insertionSort (fun a b => a.arrival ≤ b.arrival) ps).map
          (·.burst)).sum +
        2 * (List.insertionSort (fun a b => a.arrival ≤ b.arrival) ps).length + 2
      have hfl := iteOneZero_le_one (([] : List Nat) = [] ∧
        0 < (List.insertionSort (fun a b => a.arrival ≤ b.arrival) ps).length ∧
        ((((List.insertionSort (fun a b => a.arrival ≤ b.arrival) ps).head?).map
          (·.arrival)).getD 0 <
          arrAt (List.insertionSort (fun a b => a.arrival ≤ b.arrival) ps) 0))
      omega)
  refine ⟨s, hs, ?_⟩
  intro p hp
  have hp' : p ∈ List.insertionSort (fun a b => a.arrival ≤ b.arrival) ps :=
    hperm.mem_iff.2 hp
  obtain ⟨j, hj, hpj⟩ := List.mem_iff_getElem.1 hp'
  have hc := hcons j hj
  rw [pidAt_eq hj, burAt_eq hj, hpj] at hc
  exact hc

theorem sjf_conservation (ps : List Proc) (hnd : (ps.map (·.pid)).Nodup) :
    ∃ s, sjf ps = some s ∧ ∀ p ∈ ps, sumDur p.pid s = p.burst := by
  refine sjfGo_spec ps hnd
    (ps.length * (maxArrival ps + 1) + maxArrival ps + 1) (minArrival ps) [] [] []
    List.nodup_nil (by intro s hs; cases hs) (by intro k hk; cases hk) (by simp)
    (by intro p hp; simp [sumDur]) ?_
  show (ps.length - 0) * (maxArrival ps + 1) + (maxArrival ps - minArrival ps) <
    ps.length * (maxArrival ps + 1) + maxArrival ps + 1
  rw [Nat.sub_zero]
  omega

theorem priority_conservation (ps : List Proc) (hnd : (ps.map (·.pid)).Nodup) :
    ∃ s, priorityNonPreemptive ps = some s ∧ ∀ p ∈ ps, sumDur p.pid s = p.burst := by
  refine prioGo_spec ps hnd
    (ps.length * (maxArrival ps + 1) + maxArrival ps + 1) (minArrival ps) [] []
    List.nodup_nil (by intro s hs; cases hs) (by intro p hp; simp [sumDur]) ?_
  show (ps.length - 0) * (maxArrival ps + 1) + (maxArrival ps - minArrival ps) <
    ps.length * (maxArrival ps + 1) + maxArrival ps + 1
  rw [Nat.sub_zero]
  omega

theorem remAt_eq {rem : List Nat} {j : Nat} (h : j < rem.length) : remAt rem j = rem[j] := by
  unfold remAt
  rw [List.getD_eq_getElem?_getD, List.getElem?_eq_getElem h]
  rfl

theorem sumDurAtO_cons (t : Nat) (pid : String) (a : SegO) (l : List SegO) :
    sumDurAtO t pid (a :: l) =
      (if a.pid == pid then a.«end».getD t - a.start else 0) + sumDurAtO t pid l := by
  unfold sumDurAtO
  rw [List.filter_cons]
  by_cases hp : (a.pid == pid) = true
  · rw [if_pos hp, if_pos hp]
    simp
  · have hp' : (a.pid == pid) = false := by simpa using hp
    rw [hp']
    simp

theorem sumDurO_cons (pid : String) (a : SegO) (l : List SegO) :
    sumDurO pid (a :: l) =
      (if a.pid == pid then a.«end».getD a.start - a.start else 0) + sumDurO pid l := by
  unfold sumDurO
  rw [List.filter_cons]
  by_cases hp : (a.pid == pid) = true
  · rw [if_pos hp, if_pos hp]
    simp
  · have hp' : (a.pid == pid) = false := by simpa using hp
    rw [hp']
    simp

theorem sumDurAtO_append_one (t : Nat) (pid : String) (s1 : List SegO) (seg : SegO) :
    sumDurAtO t pid (s1 ++ [seg]) = sumDurAtO t pid s1 +
      (if seg.pid == pid then seg.«end».getD t - seg.start else 0) := by
  unfold sumDurAtO
  rw [List.filter_append, List.map_append, List.sum_append]
  congr 1
  by_cases h : (seg.pid == pid) = true
  · rw [if_pos h]
    simp [List.filter_cons, h]
  · have h' : (seg.pid == pid) = false := by simpa using h
    rw [h']
    simp [List.filter_cons, h']

theorem sumDurAtO_closed : ∀ (segs : List SegO), (∀ s ∈ segs, s.«end» ≠ none) →
    ∀ (t : Nat) (pid : String), sumDurAtO t pid segs = sumDurO pid segs := by
  intro segs
  induction segs with
  | nil => intro _ t pid; rfl
  | cons a l ih =>
    intro h t pid
    rw [sumDurAtO_cons, sumDurO_cons, ih (fun s hs => h s (List.mem_cons_of_mem a hs)) t pid]
    congr 1
    by_cases hp : (a.pid == pid) = true
    · rw [if_pos hp, if_pos hp]
      cases he : a.«end» with
      | none => exact absurd he (h a (List.mem_cons_self a l))
      | some e => simp
    · have hp' : (a.pid == pid) = false := by simpa using hp
      rw [hp', if_neg, if_neg]
      · simp [hp']
      · simp [hp']

theorem setLastEnd_concat (init : List SegO) (o : SegO) (t : Nat) :
    setLastEnd (init ++ [o]) t = init ++ [{ o with «end» := some t }] := by
  unfold setLastEnd
  rw [List.getLast?_concat]
  simp [List.dropLast_concat]

theorem closeOpen_concat (c : Nat) (init : List SegO) (o : SegO) (t : Nat)
    (ho : o.«end» = none) :
    closeOpen (some c) (init ++ [o]) t = init ++ [{ o with «end» := some t }] := by
  dsimp only [closeOpen]
  rw [List.getLast?_concat]
  dsimp only
  rw [if_pos ho]
  simp [List.dropLast_concat]

theorem srtfReady_mem {procs : List Proc} {rem : List Nat} {t k : Nat} :
    k ∈ srtfReady procs rem t ↔
      k < procs.length ∧ arrAt procs k ≤ t ∧ 0 < remAt rem k := by
  unfold srtfReady
  rw [List.mem_filter, List.mem_range]
  simp [and_assoc]

theorem srtfRun_none (procs : List Proc) (st : SrtfState) (next : Nat) (hc : st.cur = none) :
    srtfRun procs st next =
      if remAt (st.rem.set next (remAt st.rem next - 1)) next = 0 then
        ⟨st.rem.set next (remAt st.rem next - 1), st.t + 1, none,
          setLastEnd (st.sched ++ [⟨pidAt procs next, st.t, none⟩]) (st.t + 1)⟩
      else
        ⟨st.rem.set next (remAt st.rem next - 1), st.t + 1, some next,
          st.sched ++ [⟨pidAt procs next, st.t, none⟩]⟩ := by
  unfold srtfRun
  rw [hc]
  rfl

theorem srtfRun_same (procs : List Proc) (st : SrtfState) (next c : Nat) (hc : st.cur = some c)
    (hpid : (pidAt procs c != pidAt procs next) = false) :
    srtfRun procs st next =
      if remAt (st.rem.set c (remAt st.rem c - 1)) c = 0 then
        ⟨st.rem.set c (remAt st.rem c - 1), st.t + 1, none, setLastEnd st.sched (st.t + 1)⟩
      else ⟨st.rem.set c (remAt st.rem c - 1), st.t + 1, some c, st.sched⟩ := by
  unfold srtfRun
  rw [hc]
  dsimp only
  rw [hpid]
  rfl

theorem srtfRun_switch (procs : List Proc) (st : SrtfState) (next c : Nat)
    (hc : st.cur = some c) (hpid : (pidAt procs c != pidAt procs next) = true) :
    srtfRun procs st next =
      if remAt (st.rem.set next (remAt st.rem next - 1)) next = 0 then
        ⟨st.rem.set next (remAt st.rem next - 1), st.t + 1, none,
          setLastEnd (closeOpen (some c) st.sched st.t ++ [⟨pidAt procs next, st.t, none⟩])
            (st.t + 1)⟩
      else ⟨st.rem.set next (remAt st.rem next - 1), st.t + 1, some next,
        closeOpen (some c) st.sched st.t ++ [⟨pidAt procs next, st.t, none⟩]⟩ := by
  unfold srtfRun
  rw [hc]
  dsimp only
  rw [hpid]
  rfl

theorem srtfCurInv_none {procs : List Proc} {st : SrtfState} (h : st.cur = none) :
    srtfCurInv procs st ↔ ∀ s ∈ st.sched, s.«end» ≠ none := by
  unfold srtfCurInv
  rw [h]

theorem srtfCurInv_some {procs : List Proc} {st : SrtfState} {c : Nat} (h : st.cur = some c) :
    srtfCurInv procs st ↔ (c < procs.length ∧ 0 < remAt st.rem c ∧ arrAt procs c ≤ st.t ∧
      ∃ init o, st.sched = init ++ [o] ∧ o.«end» = none ∧ o.pid = pidAt procs c ∧
        o.start ≤ st.t ∧ ∀ s ∈ init, s.«end» ≠ none) := by
  unfold srtfCurInv
  rw [h]

theorem srtfGo_spec (procs : List Proc) (hnd : (procs.map (·.pid)).Nodup) :
    ∀ (fuel : Nat) (st : SrtfState),
      st.rem.length = procs.length →
      (∀ j, j < procs.length →
        sumDurAtO st.t (pidAt procs j) st.sched + remAt st.rem j = burAt procs j) →
      srtfCurInv procs st →
      st.rem.sum * (maxArrival procs + 1) + (maxArrival procs - st.t) < fuel →
      ∃ s, srtfGo procs fuel st = some s ∧
        ∀ j, j < procs.length → sumDurO (pidAt procs j) s = burAt procs j := by
  intro fuel
  induction fuel with
  | zero =>
    intro st _ _ _ hM
    exact absurd hM (Nat.not_lt_zero _)
  | succ f ih =>
    intro st hlen hacc hcur hM
    by_cases hloop : st.rem.any (fun r => decide (0 < r)) = true
    · obtain ⟨r, hrmem, hrpos'⟩ := List.any_eq_true.1 hloop
      have hrpos : 0 < r := by simpa using hrpos'
      obtain ⟨jr, hjr, hjreq⟩ := List.mem_iff_getElem.1 hrmem
      have hjrlen : jr < procs.length := by omega
      have hjrrem : 0 < remAt st.rem jr := by rw [remAt_eq hjr, hjreq]; exact hrpos
      have hstep : srtfGo procs (f + 1) st = srtfGo procs f (srtfStep procs st) := by
        simp only [srtfGo]
        rw [if_pos hloop]
      rw [hstep]
      have hmeasure : ∀ (i : Nat), i < procs.length → 0 < remAt st.rem i →
          (st.rem.set i (remAt st.rem i - 1)).sum * (maxArrival procs + 1) +
            (maxArrival procs - (st.t + 1)) < f := by
        intro i hil' hri
        have hsum : (st.rem.set i (remAt st.rem i - 1)).sum + 1 = st.rem.sum :=
          sum_set_sub st.rem i 1 (by omega) hri
        have hM2 := hM
        rw [← hsum, Nat.succ_mul] at hM2
        omega
      cases hs : List.insertionSort (fun a b => remAt st.rem a ≤ remAt st.rem b)
          (srtfReady procs st.rem st.t) with
      | nil =>
        have hready_nil : srtfReady procs st.rem st.t = [] := by
          have hperm := List.perm_insertionSort (fun a b => remAt st.rem a ≤ remAt st.rem b)
            (srtfReady procs st.rem st.t)
          rw [hs] at hperm
          exact hperm.symm.eq_nil
        have hjrarr : ¬ arrAt procs jr ≤ st.t := by
          intro harr
          have hin : jr ∈ srtfReady procs st.rem st.t :=
            srtfReady_mem.2 ⟨hjrlen, harr, hjrrem⟩
          rw [hready_nil] at hin
          cases hin
        have hArr : arrAt procs jr ≤ maxArrival procs := by
          rw [arrAt_eq hjrlen]
          exact maxArrival_ge (List.getElem_mem hjrlen)
        have htA : st.t < maxArrival procs := by omega
        have hcnone : st.cur = none := by
          cases hc : st.cur with
          | none => rfl
          | some c =>
            obtain ⟨hclen, hcrem, hcarr, _⟩ := (srtfCurInv_some hc).1 hcur
            have hin : c ∈ srtfReady procs st.rem st.t :=
              srtfReady_mem.2 ⟨hclen, hcarr, hcrem⟩
            rw [hready_nil] at hin
            cases hin
        have hclosed : ∀ s ∈ st.sched, s.«end» ≠ none := (srtfCurInv_none hcnone).1 hcur
        have hstep2 : srtfStep procs st = { st with t := st.t + 1 } := by
          unfold srtfStep
          rw [hs]
        rw [hstep2]
        refine ih _ hlen ?_ ?_ ?_
        · intro j hj
          show sumDurAtO (st.t + 1) (pidAt procs j) st.sched + remAt st.rem j = burAt procs j
          rw [sumDurAtO_closed st.sched hclosed, ← sumDurAtO_closed st.sched hclosed st.t]
          exact hacc j hj
        · exact (@srtfCurInv_none procs { st with t := st.t + 1 } hcnone).2 hclosed
        · show st.rem.sum * (maxArrival procs + 1) + (maxArrival procs - (st.t + 1)) < f
          omega
      | cons next s' =>
        have hnext_mem : next ∈ srtfReady procs st.rem st.t := by
          have hperm := List.perm_insertionSort (fun a b => remAt st.rem a ≤ remAt st.rem b)
            (srtfReady procs st.rem st.t)
          rw [hs] at hperm
          exact hperm.mem_iff.1 (List.mem_cons_self next s')
        obtain ⟨hnlen, hnarr, hnrem⟩ := srtfReady_mem.1 hnext_mem
        have hstep2 : srtfStep procs st = srtfRun procs st next := by
          unfold srtfStep
          rw [hs]
        rw [hstep2]
        have haccNew : ∀ (L : List SegO) (t' : Nat) (e : Option Nat) (j : Nat),
            j < procs.length →
            sumDurAtO t' (pidAt procs j) (L ++ [⟨pidAt procs next, st.t, e⟩]) =
              sumDurAtO t' (pidAt procs j) L +
                (if j = next then e.getD t' - st.t else 0) := by
          intro L t' e j hj
          rw [sumDurAtO_append_one]
          congr 1
          by_cases hjn : j = next
          · subst hjn
            rw [if_pos (by simp), if_pos rfl]
          · have hne : ¬ (((⟨pidAt procs next, st.t, e⟩ : SegO).pid == pidAt procs j)
                = true) := by
              intro hb
              have hpe : pidAt procs next = pidAt procs j := by simpa using hb
              exact hjn (pids_nodup_eq hnd hj hnlen hpe.symm)
            rw [if_neg hne, if_neg hjn]
        cases hc : st.cur with
        | none =>
          have hclosed : ∀ s ∈ st.sched, s.«end» ≠ none := (srtfCurInv_none hc).1 hcur
          have hstable : ∀ (t' : Nat) (pid : String),
              sumDurAtO t' pid st.sched = sumDurO pid st.sched :=
            fun t' pid => sumDurAtO_closed st.sched hclosed t' pid
          rw [srtfRun_none procs st next hc]
          by_cases hz : remAt (st.rem.set next (remAt st.rem next - 1)) next = 0
          · rw [if_pos hz]
            have hsl : setLastEnd (st.sched ++ [⟨pidAt procs next, st.t, none⟩]) (st.t + 1) =
                st.sched ++ [⟨pidAt procs next, st.t, some (st.t + 1)⟩] := by
              rw [setLastEnd_concat]
            rw [hsl]
            refine ih _ ?_ ?_ ?_ ?_
            · show (st.rem.set next (remAt st.rem next - 1)).length = procs.length
              rw [List.length_set]
              exact hlen
            · intro j hj
              show sumDurAtO (st.t + 1) (pidAt procs j)
                  (st.sched ++ [⟨pidAt procs next, st.t, some (st.t + 1)⟩]) +
                remAt (st.rem.set next (remAt st.rem next - 1)) j = burAt procs j
              rw [haccNew st.sched (st.t + 1) (some (st.t + 1)) j hj]
              rw [hstable (st.t + 1), ← hstable st.t]
              have hah := hacc j hj
              by_cases hjn : j = next
              · subst hjn
                rw [if_pos rfl, remAt_set_self (by omega)]
                have hgd : (some (st.t + 1)).getD (st.t + 1) = st.t + 1 := rfl
                rw [hgd]
                omega
              · rw [if_neg hjn, remAt_set_ne st.rem (fun h' => hjn h'.symm)]
                omega
            · refine (srtfCurInv_none rfl).2 ?_
              intro s hsmem
              rcases List.mem_append.1 hsmem with h | h
              · exact hclosed s h
              · have hse : s = ⟨pidAt procs next, st.t, some (st.t + 1)⟩ := by
                  simpa using h
                rw [hse]
                simp
            · exact hmeasure next hnlen hnrem
          · rw [if_neg hz]
            refine ih _ ?_ ?_ ?_ ?_
            · show (st.rem.set next (remAt st.rem next - 1)).length = procs.length
              rw [List.length_set]
              exact hlen
            · intro j hj
              show sumDurAtO (st.t + 1) (pidAt procs j)
                  (st.sched ++ [⟨pidAt procs next, st.t, none⟩]) +
                remAt (st.rem.set next (remAt st.rem next - 1)) j = burAt procs j
              rw [haccNew st.sched (st.t + 1) none j hj]
              rw [hstable (st.t + 1), ← hstable st.t]
              have hah := hacc j hj
              by_cases hjn : j = next
              · subst hjn
                rw [if_pos rfl, remAt_set_self (by omega)]
                have hgd : (none : Option Nat).getD (st.t + 1) = st.t + 1 := rfl
                rw [hgd]
                omega
              · rw [if_neg hjn, remAt_set_ne st.rem (fun h' => hjn h'.symm)]
                omega
            · refine (srtfCurInv_some rfl).2
                ⟨hnlen,
                  (show 0 < remAt (st.rem.set next (remAt st.rem next - 1)) next by omega),
                  (show arrAt procs next ≤ st.t + 1 by omega),
                  st.sched, ⟨pidAt procs next, st.t, none⟩,
                  rfl, rfl, rfl, Nat.le_succ st.t, hclosed⟩
            · exact hmeasure next hnlen hnrem
        | some c =>
          obtain ⟨hclen, hcrem, hcarr, init, o, hsched, hoend, hopid, hostart, hinit⟩ :=
            (srtfCurInv_some hc).1 hcur
          have hinitStable : ∀ (t' : Nat) (pid : String),
              sumDurAtO t' pid init = sumDurO pid init :=
            fun t' pid => sumDurAtO_closed init hinit t' pid
          have haccO : ∀ (t' : Nat) (j : Nat), j < procs.length →
              sumDurAtO t' (pidAt procs j) (init ++ [o]) =
                sumDurAtO t' (pidAt procs j) init +
                  (if j = c then t' - o.start else 0) := by
            intro t' j hj
            rw [sumDurAtO_append_one]
            congr 1
            by_cases hjc : j = c
            · subst hjc
              rw [if_pos (by rw [hopid]; simp), if_pos rfl, hoend]
              rfl
            · have hne : ¬ ((o.pid == pidAt procs j) = true) := by
                intro hb
                have hpe : o.pid = pidAt procs j := by simpa using hb
                rw [hopid] at hpe
                exact hjc (pids_nodup_eq hnd hj hclen hpe.symm)
              rw [if_neg hne, if_neg hjc]
          have haccO2 : ∀ (t₂ t' : Nat) (j : Nat), j < procs.length →
              sumDurAtO t' (pidAt procs j) (init ++ [{ o with «end» := some t₂ }]) =
                sumDurAtO t' (pidAt procs j) init +
                  (if j = c then t₂ - o.start else 0) := by
            intro t₂ t' j hj
            rw [sumDurAtO_append_one]
            congr 1
            by_cases hjc : j = c
            · have hcond : (({ o with «end» := some t₂ } : SegO).pid == pidAt procs j)
                  = true := by
                have hb : (o.pid == pidAt procs j) = true := by rw [hopid, hjc]; simp
                exact hb
              rw [if_pos hcond, if_pos hjc]
              rfl
            · have hne : ¬ ((({ o with «end» := some t₂ } : SegO).pid == pidAt procs j)
                  = true) := by
                intro hb
                have hb' : (o.pid == pidAt procs j) = true := hb
                have hpe : o.pid = pidAt procs j := by simpa using hb'
                rw [hopid] at hpe
                exact hjc (pids_nodup_eq hnd hj hclen hpe.symm)
              rw [if_neg hne, if_neg hjc]
          have haccInit : ∀ (j : Nat), j < procs.length →
              sumDurAtO st.t (pidAt procs j) init +
                (if j = c then st.t - o.start else 0) + remAt st.rem j = burAt procs j := by
            intro j hj
            have h := hacc j hj
            rw [hsched, haccO st.t j hj] at h
            exact h
          by_cases hpid : (pidAt procs c != pidAt procs next) = true
          · -- context switch: close the open segment at st.t and open a new one
            have hcne : pidAt procs c ≠ pidAt procs next := by simpa using hpid
            have hcnext : c ≠ next := fun he => hcne (he ▸ rfl)
            have hco : closeOpen (some c) st.sched st.t =
                init ++ [{ o with «end» := some st.t }] := by
              rw [hsched]
              exact closeOpen_concat c init o st.t hoend
            rw [srtfRun_switch procs st next c hc hpid, hco]
            have hLclosed : ∀ s ∈ init ++ [{ o with «end» := some st.t }],
                s.«end» ≠ none := by
              intro s hsmem
              rcases List.mem_append.1 hsmem with h | h
              · exact hinit s h
              · have hse : s = { o with «end» := some st.t } := by simpa using h
                rw [hse]
                simp
            have hLstable : ∀ (t' : Nat) (pid : String),
                sumDurAtO t' pid (init ++ [{ o with «end» := some st.t }]) =
                  sumDurO pid (init ++ [{ o with «end» := some st.t }]) :=
              fun t' pid => sumDurAtO_closed _ hLclosed t' pid
            by_cases hz : remAt (st.rem.set next (remAt st.rem next - 1)) next = 0
            · rw [if_pos hz]
              have hsl : setLastEnd ((init ++ [{ o with «end» := some st.t }]) ++
                    [⟨pidAt procs next, st.t, none⟩]) (st.t + 1) =
                  (init ++ [{ o with «end» := some st.t }]) ++
                    [⟨pidAt procs next, st.t, some (st.t + 1)⟩] := by
                rw [setLastEnd_concat]
              rw [hsl]
              refine ih _ ?_ ?_ ?_ ?_
              · show (st.rem.set next (remAt st.rem next - 1)).length = procs.length
                rw [List.length_set]
                exact hlen
              · intro j hj
                show sumDurAtO (st.t + 1) (pidAt procs j)
                    ((init ++ [{ o with «end» := some st.t }]) ++
                      [⟨pidAt procs next, st.t, some (st.t + 1)⟩]) +
                  remAt (st.rem.set next (remAt st.rem next - 1)) j = burAt procs j
                rw [haccNew _ (st.t + 1) (some (st.t + 1)) j hj]
                rw [haccO2 st.t (st.t + 1) j hj]
                rw [hinitStable (st.t + 1), ← hinitStable st.t]
                have hai := haccInit j hj
                by_cases hjn : j = next
                · subst hjn
                  rw [if_pos rfl, remAt_set_self (by omega)]
                  rw [if_neg (fun h' => hcnext h'.symm)] at hai ⊢
                  have hgd : (some (st.t + 1)).getD (st.t + 1) = st.t + 1 := rfl
                  rw [hgd]
                  omega
                · rw [if_neg hjn, remAt_set_ne st.rem (fun h' => hjn h'.symm)]
                  omega
              · refine (srtfCurInv_none rfl).2 ?_
                intro s hsmem
                rcases List.mem_append.1 hsmem with h | h
                · exact hLclosed s h
                · have hse : s = ⟨pidAt procs next, st.t, some (st.t + 1)⟩ := by
                    simpa using h
                  rw [hse]
                  simp
              · exact hmeasure next hnlen hnrem
            · rw [if_neg hz]
              refine ih _ ?_ ?_ ?_ ?_
              · show (st.rem.set next (remAt st.rem next - 1)).length = procs.length
                rw [List.length_set]
                exact hlen
              · intro j hj
                show sumDurAtO (st.t + 1) (pidAt procs j)
                    ((init ++ [{ o with «end» := some st.t }]) ++
                      [⟨pidAt procs next, st.t, none⟩]) +
                  remAt (st.rem.set next (remAt st.rem next - 1)) j = burAt procs j
                rw [haccNew _ (st.t + 1) none j hj]
                rw [haccO2 st.t (st.t + 1) j hj]
                rw [hinitStable (st.t + 1), ← hinitStable st.t]
                have hai := haccInit j hj
                by_cases hjn : j = next
                · subst hjn
                  rw [if_pos rfl, remAt_set_self (by omega)]
                  rw [if_neg (fun h' => hcnext h'.symm)] at hai ⊢
                  have hgd : (none : Option Nat).getD (st.t + 1) = st.t + 1 := rfl
                  rw [hgd]
                  omega
                · rw [if_neg hjn, remAt_set_ne st.rem (fun h' => hjn h'.symm)]
                  omega
              · refine (srtfCurInv_some rfl).2
                  ⟨hnlen,
                    (show 0 < remAt (st.rem.set next (remAt st.rem next - 1)) next by omega),
                    (show arrAt procs next ≤ st.t + 1 by omega),
                    init ++ [{ o with «end» := some st.t }],
                    ⟨pidAt procs next, st.t, none⟩, rfl, rfl, rfl,
                    Nat.le_succ st.t, hLclosed⟩
              · exact hmeasure next hnlen hnrem
          · -- same process keeps running
            have hpid' : (pidAt procs c != pidAt procs next) = false := by
              simpa using hpid
            have hpeq : pidAt procs c = pidAt procs next := by simpa using hpid'
            have hceq : c = next := pids_nodup_eq hnd hclen hnlen hpeq
            subst hceq
            rw [srtfRun_same procs st c c hc hpid']
            by_cases hz : remAt (st.rem.set c (remAt st.rem c - 1)) c = 0
            · rw [if_pos hz]
              have hsl : setLastEnd st.sched (st.t + 1) =
                  init ++ [{ o with «end» := some (st.t + 1) }] := by
                rw [hsched, setLastEnd_concat]
              rw [hsl]
              refine ih _ ?_ ?_ ?_ ?_
              · show (st.rem.set c (remAt st.rem c - 1)).length = procs.length
                rw [List.length_set]
                exact hlen
              · intro j hj
                show sumDurAtO (st.t + 1) (pidAt procs j)
                    (init ++ [{ o with «end» := some (st.t + 1) }]) +
                  remAt (st.rem.set c (remAt st.rem c - 1)) j = burAt procs j
                rw [haccO2 (st.t + 1) (st.t + 1) j hj]
                rw [hinitStable (st.t + 1), ← hinitStable st.t]
                have hai := haccInit j hj
                by_cases hjc : j = c
                · subst hjc
                  rw [if_pos rfl, remAt_set_self (by omega)]
                  rw [if_pos rfl] at hai
                  omega
                · rw [if_neg hjc, remAt_set_ne st.rem (fun h' => hjc h'.symm)]
                  rw [if_neg hjc] at hai
                  omega
              · refine (srtfCurInv_none rfl).2 ?_
                intro s hsmem
                rcases List.mem_append.1 hsmem with h | h
                · exact hinit s h
                · have hse : s = { o with «end» := some (st.t + 1) } := by simpa using h
                  rw [hse]
                  simp
              · exact hmeasure c hclen hcrem
            · rw [if_neg hz]
              refine ih _ ?_ ?_ ?_ ?_
              · show (st.rem.set c (remAt st.rem c - 1)).length = procs.length
                rw [List.length_set]
                exact hlen
              · intro j hj
                show sumDurAtO (st.t + 1) (pidAt procs j) st.sched +
                  remAt (st.rem.set c (remAt st.rem c - 1)) j = burAt procs j
                rw [hsched, haccO (st.t + 1) j hj]
                rw [hinitStable (st.t + 1), ← hinitStable st.t]
                have hai := haccInit j hj
                by_cases hjc : j = c
                · subst hjc
                  rw [if_pos rfl, remAt_set_self (by omega)]
                  rw [if_pos rfl] at hai
                  omega
                · rw [if_neg hjc, remAt_set_ne st.rem (fun h' => hjc h'.symm)]
                  rw [if_neg hjc] at hai
                  omega
              · refine (srtfCurInv_some rfl).2
                  ⟨hclen,
                    (show 0 < remAt (st.rem.set c (remAt st.rem c - 1)) c by omega),
                    (show arrAt procs c ≤ st.t + 1 by omega),
                    init, o, hsched, hoend, hopid,
                    (show o.start ≤ st.t + 1 by omega), hinit⟩
              · exact hmeasure c hclen hcrem
    · -- loop exit: every remaining time is zero
      have hallz : ∀ j, j < procs.length → remAt st.rem j = 0 := by
        intro j hj
        by_contra hne
        apply hloop
        have hjlen : j < st.rem.length := by omega
        refine List.any_eq_true.2 ⟨st.rem[j], List.getElem_mem hjlen, ?_⟩
        have : remAt st.rem j = st.rem[j] := remAt_eq hjlen
        simp only [decide_eq_true_eq]
        omega
      have hcnone : st.cur = none := by
        cases hcc : st.cur with
        | none => rfl
        | some c =>
          obtain ⟨hclen, hcrem, _⟩ := (srtfCurInv_some hcc).1 hcur
          have := hallz c hclen
          omega
      have hclosed : ∀ s ∈ st.sched, s.«end» ≠ none := (srtfCurInv_none hcnone).1 hcur
      have hstep : srtfGo procs (f + 1) st = some st.sched := by
        simp only [srtfGo]
        rw [if_neg hloop]
      refine ⟨st.sched, hstep, ?_⟩
      intro j hj
      have hah := hacc j hj
      rw [hallz j hj, sumDurAtO_closed st.sched hclosed] at hah
      omega

theorem srtf_conservation (ps : List Proc) (hnd : (ps.map (·.pid)).Nodup) :
    ∃ s, srtf ps = some s ∧ ∀ p ∈ ps, sumDurO p.pid s = p.burst := by
  obtain ⟨s, hs, hcons⟩ := srtfGo_spec ps hnd
    ((ps.map (·.burst)).sum * (maxArrival ps + 1) + maxArrival ps + 1)
    ⟨ps.map (·.burst), minArrival ps, none, []⟩
    (by simp)
    (by
      intro j hj
      show sumDurAtO (minArrival ps) (pidAt ps j) [] + remAt (ps.map (·.burst)) j =
        burAt ps j
      rw [remAt_map_burst hj]
      simp [sumDurAtO])
    (by
      refine (srtfCurInv_none rfl).2 ?_
      intro x hx
      cases hx)
    (by
      show (ps.map (·.burst)).sum * (maxArrival ps + 1) +
          (maxArrival ps - minArrival ps) <
        (ps.map (·.burst)).sum * (maxArrival ps + 1) + maxArrival ps + 1
      omega)
  refine ⟨s, hs, ?_⟩
  intro p hp
  obtain ⟨j, hj, hpj⟩ := List.mem_iff_getElem.1 hp
  have hc := hcons j hj
  rw [pidAt_eq hj, burAt_eq hj, hpj] at hc
  exact hc

/-- C1: for every process list with pairwise distinct pids, positive bursts
(arrivals are nonnegative by the `Nat` embedding) and any quantum at least 1,
each of the five scheduling functions terminates and conserves CPU time: the
sum of `end - start` over all schedule segments carrying a given pid equals
that process's burst. -/
theorem C1_conservation (ps : List Proc) (q : Nat)
    (hnd : (ps.map (·.pid)).Nodup)
    (hburst : ∀ p ∈ ps, 0 < p.burst) (hq : 1 ≤ q) :
    (∀ p ∈ ps, sumDur p.pid (fcfs ps) = p.burst) ∧
    (∃ s, sjf ps = some s ∧ ∀ p ∈ ps, sumDur p.pid s = p.burst) ∧
    (∃ s, srtf ps = some s ∧ ∀ p ∈ ps, sumDurO p.pid s = p.burst) ∧
    (∃ s, priorityNonPreemptive ps = some s ∧ ∀ p ∈ ps, sumDur p.pid s = p.burst) ∧
    (∃ s, roundRobin ps q = some s ∧ ∀ p ∈ ps, sumDur p.pid s = p.burst) :=
  ⟨fcfs_conservation ps hnd, sjf_conservation ps hnd, srtf_conservation ps hnd,
    priority_conservation ps hnd, roundRobin_conservation ps q hnd hq hburst⟩

/-- Witness for C1 at a concrete two-process input with quantum 2. -/
theorem C1_conservation_witness :
    ((([⟨"P1", 0, 2, 0⟩, ⟨"P2", 1, 1, 0⟩] : List Proc).map (·.pid)).Nodup ∧
      (∀ p ∈ ([⟨"P1", 0, 2, 0⟩, ⟨"P2", 1, 1, 0⟩] : List Proc), 0 < p.burst) ∧
      1 ≤ 2) ∧
    ((∀ p ∈ ([⟨"P1", 0, 2, 0⟩, ⟨"P2", 1, 1, 0⟩] : List Proc),
        sumDur p.pid (fcfs [⟨"P1", 0, 2, 0⟩, ⟨"P2", 1, 1, 0⟩]) = p.burst) ∧
      (∃ s, sjf [⟨"P1", 0, 2, 0⟩, ⟨"P2", 1, 1, 0⟩] = some s ∧
        ∀ p ∈ ([⟨"P1", 0, 2, 0⟩, ⟨"P2", 1, 1, 0⟩] : List Proc),
          sumDur p.pid s = p.burst) ∧
      (∃ s, srtf [⟨"P1", 0, 2, 0⟩, ⟨"P2", 1, 1, 0⟩] = some s ∧
        ∀ p ∈ ([⟨"P1", 0, 2, 0⟩, ⟨"P2", 1, 1, 0⟩] : List Proc),
          sumDurO p.pid s = p.burst) ∧
      (∃ s, priorityNonPreemptive [⟨"P1", 0, 2, 0⟩, ⟨"P2", 1, 1, 0⟩] = some s ∧
        ∀ p ∈ ([⟨"P1", 0, 2, 0⟩, ⟨"P2", 1, 1, 0⟩] : List Proc),
          sumDur p.pid s = p.burst) ∧
      (∃ s, roundRobin [⟨"P1", 0, 2, 0⟩, ⟨"P2", 1, 1, 0⟩] 2 = some s ∧
        ∀ p ∈ ([⟨"P1", 0, 2, 0⟩, ⟨"P2", 1, 1, 0⟩] : List Proc),
          sumDur p.pid s = p.burst)) :=
  ⟨⟨by decide, by decide, by decide⟩,
    C1_conservation [⟨"P1", 0, 2, 0⟩, ⟨"P2", 1, 1, 0⟩] 2 (by decide) (by decide)
      (by decide)⟩
